import Mathlib

/-!
# question01: splitting products over trucks

A shallow embedding of `src/question01/main.cpp` and theorems about it.

Conventions of the embedding.

* A C++ `int` is an `Int`; every `int` addition, subtraction and `std::abs` on
  weights is followed by `toInt`, the 32-bit two's complement wrap.  A conversion
  of a `size_t` to `int` is `toInt` as well.
* A `size_t` is a `Nat`; every `size_t` addition or subtraction is followed by
  `toSizeT`, the reduction modulo `2 ^ 64`.
* A `std::vector` is a `List`.  The vector `ret` that the recursive lambdas
  capture by reference is threaded through them as an explicit argument and
  returned.
* `PartitionCombinations` contains a loop whose bound is computed with unsigned
  arithmetic, so its embedding carries a step budget (`fuel`) and returns
  `none` when the budget is exhausted.
-/

namespace Question01

/-! ## Machine integers -/

/-- The largest value of a C++ `int` (`INT_MAX` of `<climits>`). -/
def INT_MAX : Int := 2147483647

/-- The value of an integer expression once stored in a 32-bit `int`. -/
def toInt (x : Int) : Int := (x + 2147483648) % 4294967296 - 2147483648

/-- The value of an integer expression once stored in a 64-bit `size_t`. -/
def toSizeT (x : Int) : Nat := (x % 18446744073709551616).toNat

/-! ## Data model -/

/-- The `struct Product` of the source: an id and a weight, both `int`. -/
structure Product where
  id : Int
  weight : Int
  deriving DecidableEq, Repr

/-! ## `ParseArguments` (main.cpp 38-57) -/

/-- The function `isspace` of the C library in the "C" locale. -/
def isspace (c : Char) : Bool := c.toNat = 32 || (9 ≤ c.toNat && c.toNat ≤ 13)

/-- The decimal digits at the start of the input, accumulated on `acc`, and the rest of the
input. -/
def scanDigits : List Char → Nat → Nat × List Char
  | [], acc => (acc, [])
  | c :: rest, acc =>
    if c.isDigit then scanDigits rest (10 * acc + (c.toNat - 48)) else (acc, c :: rest)

/-- The value that the C library converts a decimal number to before it is stored: a number
outside the range of `long` is replaced by `LONG_MIN` or `LONG_MAX`. -/
def clampLong (x : Int) : Int :=
  if x < -9223372036854775808 then -9223372036854775808
  else if 9223372036854775807 < x then 9223372036854775807
  else x

/-- The conversion `%d` of `sscanf`: white space is skipped, then an optional sign and at
least one decimal digit are read; the result is the value stored in the `int` and the rest of
the input, or `none` when the input does not start with a number (a matching failure, or the
end of the input).  For a number outside the range of `int` the C standard defines no
result; the embedding follows the C library, which saturates the number to the range of
`long` and stores its low 32 bits. -/
def scanInt (input : List Char) : Option (Int × List Char) :=
  let s := input.dropWhile isspace
  let signed : Bool × List Char :=
    match s with
    | c :: rest => if c = '-' then (true, rest) else if c = '+' then (false, rest) else (false, s)
    | [] => (false, s)
  match signed.2 with
  | [] => none
  | c :: _ =>
    if c.isDigit then
      let r := scanDigits signed.2 0
      some (toInt (clampLong (if signed.1 then -(r.1 : Int) else (r.1 : Int))), r.2)
    else none

/-- The characters of a format string that are matched literally: the input must start with
them; the result is the rest of the input. -/
def scanLiteral : List Char → List Char → Option (List Char)
  | [], input => some input
  | _ :: _, [] => none
  | f :: fmt, c :: input => if f = c then scanLiteral fmt input else none

/-- The call `sscanf(arg, "--truck=%d", &truck_number)`: the new value of `truck_number`, which
is assigned only when the literal prefix and a number are matched. -/
def scanTruck (arg : String) (truck_number : Int) : Int :=
  match scanLiteral "--truck=".toList arg.toList with
  | none => truck_number
  | some rest =>
    match scanInt rest with
    | none => truck_number
    | some (n, _) => n

/-- The calls `int id, weight; sscanf(arg, "%d:%d", &id, &weight)`: the values of `id` and
`weight` afterwards.  A variable that is not assigned keeps its indeterminate initial value,
which is the parameter `id0` or `weight0`. -/
def scanProduct (arg : String) (id0 weight0 : Int) : Int × Int :=
  match scanInt arg.toList with
  | none => (id0, weight0)
  | some (id, rest) =>
    match scanLiteral [':'] rest with
    | none => (id, weight0)
    | some rest1 =>
      match scanInt rest1 with
      | none => (id, weight0)
      | some (weight, _) => (id, weight)

/-- The function `ParseArguments(argc, argv)`; `argv` has `argc` entries, the first one is the
program name, and the loop runs over the positions `i = 1, ..., argc - 1`.  The global
`truck_number` is an argument and is returned with the products.
`strcmp(argv[i], "--truck=") == 0` is the equality of the two strings.  The locals `id` and
`weight` are declared without a value in every iteration; `id0 i` and `weight0 i` are their
indeterminate values in the iteration for `argv[i]`. -/
def ParseArguments (argv : List String) (truck_number : Int) (id0 weight0 : Nat → Int) :
    List Product × Int :=
  if argv.length < 2 then ([], truck_number)
  else
    (List.range' 1 (argv.length - 1)).foldl
      (fun (state : List Product × Int) i =>
        let arg := argv.getD i ""
        if arg = "--truck=" then (state.1, scanTruck arg state.2)
        else
          let iw := scanProduct arg (id0 i) (weight0 i)
          (state.1 ++ [Product.mk iw.1 iw.2], state.2))
      ([], truck_number)

/-! ## `Combinations` (main.cpp 69-90) -/

/-- The recursive lambda `f` of `Combinations`.  The arguments `size` and `index`
of the source are represented by `rest`, the elements `elements[index .. size)`
that are still to be visited: `index >= size` is `rest = []`, `elements[index]`
is the head of `rest` and `index + 1` is its tail.  `ret` is the captured result
vector. -/
def Combinations.f (n : Int) : List Int → List Int → List (List Int) → List (List Int)
  | [], choices, ret =>
    if n = toInt choices.length then ret ++ [choices] else ret
  | x :: rest, choices, ret =>
    if n = toInt choices.length then ret ++ [choices]
    else
      let v := choices ++ [x]
      let ret1 := Combinations.f n rest v ret
      Combinations.f n rest choices ret1

/-- The function `Combinations(elements, count)`. -/
def Combinations (elements : List Int) (count : Int) : List (List Int) :=
  Combinations.f count elements [] []

/-! ## `VectorDiff` (main.cpp 100-109) -/

/-- The function `VectorDiff(elements, subset)`: the loop pushes every `index`
of `elements` for which `std::count` over `subset` is zero. -/
def VectorDiff (elements subset : List Int) : List Int :=
  elements.foldl (fun ret index => if subset.count index = 0 then ret ++ [index] else ret) []

/-! ## `PartitionCombinations` (main.cpp 127-163) -/

/-- The loop `for (size_t i = start; i <= limit; ++i) body(i)` over a `size_t`
counter.  One unit of budget is spent per evaluation of the loop condition. -/
def forSizeT (body : Nat → List (List (List Int)) → Option (List (List (List Int))))
    (limit : Nat) : Nat → Nat → List (List (List Int)) → Option (List (List (List Int)))
  | 0, _, _ => none
  | fuel + 1, i, ret =>
    if i ≤ limit then
      (body i ret).bind (fun ret1 => forSizeT body limit fuel (toSizeT (i + 1)) ret1)
    else some ret

/-- The recursive lambda `f` of `PartitionCombinations`; `total` is the captured
parameter and `ret` the captured result vector.  One unit of budget is spent
per call. -/
def PartitionCombinations.f (total : Nat) :
    Nat → List Int → Nat → Int → List (List Int) → List (List (List Int)) →
      Option (List (List (List Int)))
  | 0, _, _, _, _, _ => none
  | fuel + 1, v, min_size, parts, acc, ret =>
    let sum := acc.foldl (fun sum g => toSizeT (sum + g.length)) 0
    if parts = 0 then
      if total = sum then some (ret ++ [acc]) else some ret
    else if toSizeT (sum + min_size) > total then some ret
    else
      let limit := toSizeT (toSizeT ((v.length : Int) - toSizeT parts) + 1)
      forSizeT
        (fun i ret1 =>
          (Combinations v (toInt i)).foldlM
            (fun ret2 candidate =>
              let remainings := VectorDiff v candidate
              let new_acc := acc ++ [candidate]
              PartitionCombinations.f total fuel remainings i (parts - 1) new_acc ret2)
            ret1)
        limit fuel min_size ret

/-- The function `PartitionCombinations(total, partitions)`; `base` is the
vector filled by `std::iota` with the `int`s `0, 1, ...`. -/
def PartitionCombinations (fuel : Nat) (total : Nat) (partitions : Int) :
    Option (List (List (List Int))) :=
  let base := (List.range total).map (fun (k : Nat) => toInt (k : Int))
  PartitionCombinations.f total fuel base 1 partitions [] []

/-- The arguments `(v, min_size, parts, acc)` of a call of the lambda `f` of
`PartitionCombinations`. -/
structure Call where
  v : List Int
  min_size : Nat
  parts : Int
  acc : List (List Int)

/-- The values that the counter of `for (size_t i = min_size; i <= limit; ++i)` takes in the
loop body: `min_size` when the condition holds for it, and `i + 1` after a value `i` when the
condition holds for `i + 1`. -/
inductive LoopValue (limit min_size : Nat) : Nat → Prop where
  | first : min_size ≤ limit → LoopValue limit min_size min_size
  | next (i : Nat) : LoopValue limit min_size i → toSizeT (i + 1) ≤ limit →
      LoopValue limit min_size (toSizeT (i + 1))

/-- The calls of the lambda `f` that are made in `PartitionCombinations(total, partitions)`:
the initial call `f(base, 1, partitions, {})` (line 162), and the call
`f(remainings, i, parts - 1, new_acc)` (line 152) for a value `i` of the loop counter and a
`candidate` of `Combinations(v, i)` inside a call that passed both `if`s (lines 137, 146). -/
inductive Reached (total : Nat) (partitions : Int) : Call → Prop where
  | initial :
      Reached total partitions
        ⟨(List.range total).map (fun (k : Nat) => toInt (k : Int)), 1, partitions, []⟩
  | step (c : Call) (i : Nat) (candidate : List Int) :
      Reached total partitions c → c.parts ≠ 0 →
      ¬ (toSizeT (c.acc.foldl (fun sum g => toSizeT (sum + g.length)) 0 + c.min_size) > total) →
      LoopValue (toSizeT (toSizeT ((c.v.length : Int) - toSizeT c.parts) + 1)) c.min_size i →
      candidate ∈ Combinations c.v (toInt i) →
      Reached total partitions ⟨VectorDiff c.v candidate, i, c.parts - 1, c.acc ++ [candidate]⟩

/-! ## `TotalWeights` and `DiffSum` (main.cpp 173-204) -/

/-- The weight read by `products[index].weight`; the `int` index is converted to
the `size_t` subscript.  A subscript outside the vector is undefined behaviour
in the source; the embedding reads the weight `0` there. -/
def weightAt (products : List Product) (index : Int) : Int :=
  match products[toSizeT index]? with
  | some p => p.weight
  | none => 0

/-- The function `TotalWeights(products, indexes)`. -/
def TotalWeights (products : List Product) (indexes : List Int) : Int :=
  indexes.foldl (fun sum index => toInt (sum + weightAt products index)) 0

/-- The body `diff_sum += std::abs(sums[i] - sums[j])` of the inner loop of
`DiffSum`. -/
def DiffSum.step (sums : List Int) (i j : Nat) (diff_sum : Int) : Int :=
  toInt (diff_sum + toInt |toInt (sums.getD i 0 - sums.getD j 0)|)

/-- The function `DiffSum(products, candidates)`.  The outer loop runs `i` over
`0 .. sums.size() - 1` with the bound computed in `size_t`, the inner loop runs
`j` over `i + 1 .. sums.size()`. -/
def DiffSum (products : List Product) (candidates : List (List Int)) : Int :=
  let sums := candidates.map (fun candidate => TotalWeights products candidate)
  (List.range (toSizeT ((sums.length : Int) - 1))).foldl
    (fun diff_sum i =>
      (List.range' (i + 1) (sums.length - (i + 1))).foldl
        (fun diff_sum j => DiffSum.step sums i j diff_sum) diff_sum)
    0

/-! ## `ProductIDString` and `main` (main.cpp 214-225, 297-319) -/

/-- The id read by `products[indexes[i]].id`, with the same convention as
`weightAt`. -/
def idAt (products : List Product) (index : Int) : Int :=
  match products[toSizeT index]? with
  | some p => p.id
  | none => 0

/-- The function `ProductIDString(products, indexes)`: the ids joined by commas. -/
def ProductIDString (products : List Product) (indexes : List Int) : String :=
  String.intercalate "," (indexes.map (fun index => toString (idAt products index)))

/-- The search loop of `main` (lines 304-312): the state is the pair
`(ret, min_val)`, initially `({}, INT_MAX)`. -/
def main.search (products : List Product) (conbinations : List (List (List Int))) :
    List (List Int) × Int :=
  conbinations.foldl
    (fun state conbination =>
      let diff_sum := DiffSum products conbination
      if diff_sum < state.2 then (conbination, diff_sum) else state)
    ([], INT_MAX)

/-- What a run of `main` does, as far as it is observable. -/
inductive Outcome where
  /-- The usage line was printed and `main` returned 1. -/
  | usage : Outcome
  /-- The lines `truck_i:ids` were printed and `main` returned 0. -/
  | printed : List String → Outcome
  /-- The lines given were printed, then `ret[i - 1]` was read outside `ret`. -/
  | readOutsideRet : List String → Outcome
  deriving DecidableEq, Repr

/-- The output loop of `main` (lines 314-317) from counter value `i` on, for the
given number of remaining iterations; `lines` are the lines printed so far. -/
def main.print (products : List Product) (ret : List (List Int)) :
    Nat → Int → List String → Outcome
  | 0, _, lines => Outcome.printed lines
  | k + 1, i, lines =>
    match ret[toSizeT (i - 1)]? with
    | none => Outcome.readOutsideRet lines
    | some indexes =>
      main.print products ret k (i + 1)
        (lines ++ ["truck_" ++ toString i ++ ":" ++ ProductIDString products indexes])

/-- The function `main` after argument parsing: `products` is the result of
`ParseArguments` and `truck_number` the value of the global of that name.  The
result is `none` when the step budget of `PartitionCombinations` is exhausted. -/
def main (fuel : Nat) (products : List Product) (truck_number : Int) : Option Outcome :=
  if products.isEmpty then some Outcome.usage
  else
    (PartitionCombinations fuel products.length truck_number).map
      (fun conbinations =>
        let ret := (main.search products conbinations).1
        main.print products ret truck_number.toNat 1 [])

/-! ## Auxiliary definitions used in the proofs -/

/-- The sublists of `l` with `k` elements, in the order in which `Combinations`
visits them: those that contain the head come first. -/
def combs : Nat → List Int → List (List Int)
  | 0, _ => [[]]
  | _ + 1, [] => []
  | k + 1, x :: xs => (combs k xs).map (fun s => x :: s) ++ combs (k + 1) xs


/-- The group sequences that a call `f(v, min_size, parts, acc)` of the lambda of
`PartitionCombinations` appends to `ret`, each without its prefix `acc`, in the
order of the loops: the first group has `i` elements for `i` from `min_size` to
`v.size() - parts + 1`, it is a combination `c` of `v`, and the other groups
are enumerated from the rest of `v` with minimum size `i`. -/
def enum : Nat → Nat → List Int → List (List (List Int))
  | 0, _, v => if v = [] then [[]] else []
  | p + 1, m, v =>
    (List.range' m (v.length - p + 1 - m)).flatMap (fun i =>
      (combs i v).flatMap (fun c =>
        (enum p i (v.filter (fun x => decide (x ∉ c)))).map (fun q => c :: q)))

/-- The `int` value of `std::abs(a - b)` in `DiffSum`: the difference and the absolute value
are both stored in an `int`. -/
def absDiff (a b : Int) : Int := toInt |toInt (a - b)|

/-- The sum, as an integer without wrapping, of the terms `absDiff a b` over all pairs of
entries `a` before `b` of a list. -/
def pairSum : List Int → Int
  | [] => 0
  | a :: l => (l.map (absDiff a)).sum + pairSum l

/-- The sum of the absolute differences `|a - b|` over all pairs of entries `a` before `b`
of a list, computed in the integers. -/
def exactPairs : List Int → Int
  | [] => 0
  | a :: l => (l.map (fun b => |a - b|)).sum + exactPairs l

/-- The sum of the weights of the products at the positions `indexes`, computed in the
integers. -/
def exactTotal (products : List Product) (indexes : List Int) : Int :=
  (indexes.map (weightAt products)).sum

/-- The four items `1:50 2:30 3:40 4:10` of the end-to-end example. -/
def exampleProducts : List Product := [⟨1, 50⟩, ⟨2, 30⟩, ⟨3, 40⟩, ⟨4, 10⟩]

/-- Four items whose pairwise differences add up to `2 ^ 32`. -/
def wrapProducts : List Product := [⟨1, 0⟩, ⟨2, 0⟩, ⟨3, 1073741824⟩, ⟨4, 1073741824⟩]

/-- Two items whose weights add up to `INT_MAX + 1`. -/
def heavyProducts : List Product := [⟨1, 2147483647⟩, ⟨2, 1⟩]

/-- Two items whose weights differ by `INT_MAX`. -/
def sentinelProducts : List Product := [⟨1, 0⟩, ⟨2, 2147483647⟩]

/-- Two items, fewer than the default number of trucks. -/
def twoProducts : List Product := [⟨1, 50⟩, ⟨2, 30⟩]

/-- Five items, as in the example with six trucks. -/
def fiveProducts : List Product := [⟨1, 50⟩, ⟨2, 30⟩, ⟨3, 40⟩, ⟨4, 10⟩, ⟨5, 20⟩]
/-! ## Machine integers: values in range are unchanged -/

theorem toInt_of_range {x : Int} (h0 : -2147483648 ≤ x) (h1 : x ≤ 2147483647) : toInt x = x := by
  unfold toInt; omega

theorem toInt_natCast {k : Nat} (h : k < 2147483648) : toInt (k : Int) = k := by
  unfold toInt; omega

theorem toSizeT_natCast {k : Nat} (h : k < 18446744073709551616) : toSizeT (k : Int) = k := by
  unfold toSizeT; omega

/-! ## `Combinations`: the list of results -/

theorem Combinations.f_ret (n : Int) (rest : List Int) :
    ∀ (choices : List Int) (ret : List (List Int)),
      Combinations.f n rest choices ret = ret ++ Combinations.f n rest choices [] := by
  induction rest with
  | nil =>
    intro choices ret
    simp only [Combinations.f]
    split <;> simp
  | cons x rest ih =>
    intro choices ret
    simp only [Combinations.f]
    split
    · simp
    · rw [ih choices (Combinations.f n rest (choices ++ [x]) ret),
        ih (choices ++ [x]) ret, ih choices (Combinations.f n rest (choices ++ [x]) []),
        List.append_assoc]

theorem Combinations.f_eq_combs (n : Nat) (hn : n < 2147483648) (rest : List Int) :
    ∀ (choices : List Int) (k : Nat), n = choices.length + k →
      Combinations.f (n : Int) rest choices [] = (combs k rest).map (fun s => choices ++ s) := by
  induction rest with
  | nil =>
    intro choices k hk
    have hc : toInt (choices.length : Int) = choices.length := toInt_natCast (by omega)
    simp only [Combinations.f, hc]
    cases k with
    | zero => simp [combs]; omega
    | succ k => simp [combs]; omega
  | cons x rest ih =>
    intro choices k hk
    have hc : toInt (choices.length : Int) = choices.length := toInt_natCast (by omega)
    simp only [Combinations.f, hc]
    cases k with
    | zero => simp [combs]; omega
    | succ k =>
      have hne : ¬ ((n : Int) = (choices.length : Int)) := by omega
      rw [if_neg hne, Combinations.f_ret, ih (choices ++ [x]) k (by simp; omega),
        ih choices (k + 1) hk]
      simp [combs, List.map_map, Function.comp_def]

theorem Combinations_eq_combs (elements : List Int) (count : Int) (h0 : 0 ≤ count)
    (h1 : count ≤ INT_MAX) : Combinations elements count = combs count.toNat elements := by
  unfold INT_MAX at h1
  obtain ⟨n, rfl⟩ := Int.eq_ofNat_of_zero_le h0
  have := Combinations.f_eq_combs n (by omega) elements [] n (by simp)
  simpa [Combinations] using this

theorem combs_perm_sublistsLen : ∀ (k : Nat) (l : List Int), (combs k l).Perm (List.sublistsLen k l)
  | 0, l => by simp [combs]
  | k + 1, [] => by simp [combs]
  | k + 1, x :: xs => by
    rw [combs, List.sublistsLen_succ_cons]
    exact (List.perm_append_comm).trans
      ((combs_perm_sublistsLen (k + 1) xs).append ((combs_perm_sublistsLen k xs).map _))

theorem mem_combs {k : Nat} {l s : List Int} : s ∈ combs k l ↔ s.Sublist l ∧ s.length = k := by
  rw [(combs_perm_sublistsLen k l).mem_iff, List.mem_sublistsLen]

theorem length_combs (k : Nat) (l : List Int) : (combs k l).length = Nat.choose l.length k := by
  rw [(combs_perm_sublistsLen k l).length_eq, List.length_sublistsLen]

theorem nodup_combs (k : Nat) {l : List Int} (h : l.Nodup) : (combs k l).Nodup :=
  (combs_perm_sublistsLen k l).nodup_iff.mpr (List.nodup_sublistsLen k h)

theorem count_eq_one_of_nodup_of_mem {s : List Int} :
    ∀ {l : List (List Int)}, l.Nodup → s ∈ l → List.count s l = 1
  | [], _, h => by simp at h
  | a :: l, hd, h => by
    rw [List.nodup_cons] at hd
    rw [List.count_cons]
    by_cases hs : a = s
    · subst hs
      have : List.count a l = 0 := List.count_eq_zero.mpr hd.1
      simp [this]
    · have hm : s ∈ l := by
        rcases List.mem_cons.mp h with h | h
        · exact absurd h.symm hs
        · exact h
      have := count_eq_one_of_nodup_of_mem hd.2 hm
      simp [this, hs]

/-! ## `VectorDiff`: the list of results -/

theorem VectorDiff_foldl (subset : List Int) (elements : List Int) :
    ∀ ret : List Int,
      elements.foldl (fun ret index => if subset.count index = 0 then ret ++ [index] else ret) ret
        = ret ++ elements.filter (fun x => decide (x ∉ subset)) := by
  induction elements with
  | nil => intro ret; simp
  | cons x xs ih =>
    intro ret
    rw [List.foldl_cons, ih]
    by_cases hx : x ∈ subset
    · have : ¬ (List.count x subset = 0) := by rw [List.count_eq_zero]; simpa using hx
      simp [this, hx]
    · have : List.count x subset = 0 := List.count_eq_zero.mpr hx
      simp [this, hx]

theorem VectorDiff_eq_filter (elements subset : List Int) :
    VectorDiff elements subset = elements.filter (fun x => decide (x ∉ subset)) := by
  simpa [VectorDiff] using VectorDiff_foldl subset elements []

theorem mem_VectorDiff {elements subset : List Int} {x : Int} :
    x ∈ VectorDiff elements subset ↔ x ∈ elements ∧ x ∉ subset := by
  simp [VectorDiff_eq_filter]

theorem length_VectorDiff {elements subset : List Int} (he : elements.Nodup)
    (hs : subset.Nodup) (hsub : ∀ x ∈ subset, x ∈ elements) :
    (VectorDiff elements subset).length = elements.length - subset.length := by
  have hp : (elements.filter (fun x => decide (x ∈ subset))).Perm subset := by
    rw [List.perm_ext_iff_of_nodup (he.filter _) hs]
    intro a
    simp only [List.mem_filter, decide_eq_true_eq]
    exact ⟨fun h => h.2, fun h => ⟨hsub a h, h⟩⟩
  have hl := List.length_eq_length_filter_add (l := elements) (fun x => decide (x ∈ subset))
  rw [hp.length_eq] at hl
  have hf : (elements.filter (fun x => decide (x ∉ subset)))
      = elements.filter (fun x => !(decide (x ∈ subset))) := by
    congr 1; funext x; simp
  rw [VectorDiff_eq_filter, hf]
  omega


/-! ## `PartitionCombinations`: the loops compute `enum` -/

theorem foldlM_append {α : Type} (h : List (List (List Int)) → α → Option (List (List (List Int))))
    (g : α → List (List (List Int))) :
    ∀ (l : List α) (ret : List (List (List Int))),
      (∀ c ∈ l, ∀ ret1, h ret1 c = some (ret1 ++ g c)) →
      l.foldlM h ret = some (ret ++ l.flatMap g) := by
  intro l
  induction l with
  | nil => intro ret _; simp
  | cons c l ih =>
    intro ret hc
    rw [List.foldlM_cons, hc c (List.mem_cons_self c l) ret]
    simp only [Option.some_bind, pure_bind, bind]
    rw [ih (ret ++ g c) (fun d hd => hc d (List.mem_cons_of_mem c hd))]
    simp [List.append_assoc]

theorem forSizeT_eq (body : Nat → List (List (List Int)) → Option (List (List (List Int))))
    (g : Nat → List (List (List Int))) (limit m : Nat) (hl : limit + 1 < 18446744073709551616)
    (hb : ∀ i ret, m ≤ i → i ≤ limit → body i ret = some (ret ++ g i)) :
    ∀ (fuel i : Nat) (ret : List (List (List Int))), m ≤ i → 1 ≤ fuel → limit + 2 ≤ fuel + i →
      forSizeT body limit fuel i ret = some (ret ++ (List.range' i (limit + 1 - i)).flatMap g) := by
  intro fuel
  induction fuel with
  | zero => intro i ret _ h1 _; omega
  | succ fuel ih =>
    intro i ret hm _ hf
    rw [forSizeT]
    by_cases hi : i ≤ limit
    · rw [if_pos hi, hb i ret hm hi]
      have hs : toSizeT ((i : Int) + 1) = i + 1 := by
        have := @toSizeT_natCast (i + 1) (by omega)
        simpa using this
      simp only [Option.some_bind, hs]
      rw [ih (i + 1) (ret ++ g i) (by omega) (by omega) (by omega)]
      have hr : limit + 1 - i = (limit + 1 - (i + 1)) + 1 := by omega
      rw [hr, List.range'_succ]
      simp [List.append_assoc]
    · rw [if_neg hi]
      have hr : limit + 1 - i = 0 := by omega
      simp [hr]

theorem nodup_filter_notMem {v : List Int} (c : List Int) (hv : v.Nodup) :
    (v.filter (fun x => decide (x ∉ c))).Nodup :=
  hv.sublist (List.filter_sublist v)

theorem length_filter_notMem {v c : List Int} (hv : v.Nodup) (hc : c.Sublist v) :
    (v.filter (fun x => decide (x ∉ c))).length + c.length = v.length := by
  have h := length_VectorDiff hv (hv.sublist hc) (fun x hx => hc.subset hx)
  rw [VectorDiff_eq_filter] at h
  have := hc.length_le
  omega

theorem toSizeT_add (a b : Nat) (h : a + b < 18446744073709551616) :
    toSizeT ((a : Int) + (b : Int)) = a + b := by
  have := @toSizeT_natCast (a + b) h
  simpa using this

theorem limit_eq (n p : Nat) (hp : p + 1 ≤ n) (hn : n < 2147483648) :
    toSizeT ((toSizeT ((n : Int) - (toSizeT ((p + 1 : Nat) : Int) : Int)) : Nat) + 1) = n - p := by
  have h1 : toSizeT ((p + 1 : Nat) : Int) = p + 1 := toSizeT_natCast (by omega)
  rw [h1]
  clear h1
  have h2 : (n : Int) - ((p + 1 : Nat) : Int) = ((n - (p + 1) : Nat) : Int) := by omega
  have h3 : ((n - (p + 1) : Nat) : Int) + 1 = ((n - p : Nat) : Int) := by omega
  rw [h2, toSizeT_natCast (by omega), h3, toSizeT_natCast (by omega)]

theorem PartitionCombinations.f_eq_enum (total : Nat) (ht : total < 2147483648) :
    ∀ (p fuel : Nat) (v : List Int) (m : Nat) (acc : List (List Int))
      (ret : List (List (List Int))), v.Nodup → 1 ≤ m → m ≤ 2147483648 →
      acc.foldl (fun sum g => toSizeT (sum + g.length)) 0 + v.length = total →
      p ≤ v.length → v.length + 2 ≤ fuel →
      PartitionCombinations.f total fuel v m (p : Int) acc ret =
        some (ret ++ (enum p m v).map (fun q => acc ++ q)) := by
  intro p
  induction p with
  | zero =>
    intro fuel v m acc ret _ _ _ hsum _ hf
    obtain ⟨fuel, rfl⟩ : ∃ k, fuel = k + 1 := ⟨fuel - 1, by omega⟩
    rw [PartitionCombinations.f]
    simp only [Nat.cast_zero, if_true]
    by_cases hv : v = []
    · subst hv
      simp only [List.length_nil, Nat.add_zero] at hsum
      simp [enum, hsum]
    · have hlen : 0 < v.length := List.length_pos.mpr hv
      have hne : ¬ total = acc.foldl (fun sum g => toSizeT (sum + g.length)) 0 := by omega
      simp [enum, hv, hne]
  | succ p ih =>
    intro fuel v m acc ret hv hm hm2 hsum hp hf
    obtain ⟨fuel, rfl⟩ : ∃ k, fuel = k + 1 := ⟨fuel - 1, by omega⟩
    rw [PartitionCombinations.f]
    have hp0 : ¬ (((p + 1 : Nat) : Int) = 0) := by omega
    simp only [if_neg hp0]
    generalize hS : acc.foldl (fun sum g => toSizeT (sum + g.length)) 0 = S at hsum
    rw [toSizeT_add S m (by omega), limit_eq v.length p hp (by omega)]
    by_cases hprune : S + m > total
    · rw [if_pos hprune]
      have hr : v.length - p + 1 - m = 0 := by omega
      simp [enum, hr]
    · rw [if_neg hprune]
      refine Eq.trans (forSizeT_eq _ (fun i => (combs i v).flatMap (fun c =>
          (enum p i (v.filter (fun x => decide (x ∉ c)))).map (fun q => acc ++ c :: q)))
        (v.length - p) m (by omega) ?_ fuel m ret (le_refl m) (by omega) (by omega)) ?_
      · intro i ret1 hmi hil
        have h0 : (0 : Int) ≤ (i : Int) := by omega
        have h1 : (i : Int) ≤ INT_MAX := by
          have : i ≤ 2147483647 := by omega
          unfold INT_MAX
          exact_mod_cast this
        have hcomb := Combinations_eq_combs v (i : Int) h0 h1
        rw [Int.toNat_ofNat] at hcomb
        have hi31 : i < 2147483648 := by omega
        simp only [toInt_natCast hi31, hcomb]
        refine foldlM_append _ (fun c =>
          (enum p i (v.filter (fun x => decide (x ∉ c)))).map (fun q => acc ++ c :: q))
          (combs i v) ret1 ?_
        intro c hc ret2
        rw [mem_combs] at hc
        have hlen := length_filter_notMem hv hc.1
        have hcl := hc.1.length_le
        have hpp : ((p + 1 : Nat) : Int) - 1 = (p : Int) := by omega
        have hacc : (acc ++ [c]).foldl (fun sum g => toSizeT (sum + g.length)) 0 = S + c.length := by
          rw [List.foldl_append, hS]
          simp only [List.foldl_cons, List.foldl_nil]
          exact toSizeT_add S c.length (by omega)
        rw [hpp, VectorDiff_eq_filter,
          ih fuel _ i (acc ++ [c]) ret2 (nodup_filter_notMem c hv) (by omega) (by omega)
            (by rw [hacc]; omega) (by omega) (by omega)]
        simp [List.append_assoc]
      · simp [enum, List.map_flatMap, List.flatMap_map, Function.comp_def]

/-- The vector `base` of `PartitionCombinations`: the indices `0, 1, ..., total - 1`. -/
theorem base_eq (total : Nat) (ht : total < 2147483648) :
    (List.range total).map (fun (k : Nat) => toInt (k : Int)) =
      (List.range total).map (fun (k : Nat) => (k : Int)) := by
  apply List.map_congr_left
  intro k hk
  have hk1 : k < total := List.mem_range.mp hk
  exact toInt_natCast (by omega)

theorem mem_base {total : Nat} {x : Int} :
    x ∈ (List.range total).map (fun (k : Nat) => (k : Int)) ↔ 0 ≤ x ∧ x < total := by
  simp only [List.mem_map, List.mem_range]
  constructor
  · rintro ⟨k, hk, rfl⟩; omega
  · rintro ⟨h0, h1⟩; exact ⟨x.toNat, by omega, by omega⟩

theorem sorted_base (total : Nat) :
    ((List.range total).map (fun (k : Nat) => (k : Int))).Sorted (· < ·) := by
  have h : (List.range total).Pairwise (· < ·) := List.pairwise_lt_range total
  exact (List.pairwise_map.mpr (h.imp (fun hab => by exact_mod_cast hab)))

theorem nodup_base (total : Nat) :
    ((List.range total).map (fun (k : Nat) => (k : Int))).Nodup :=
  (sorted_base total).nodup

theorem PartitionCombinations_eq_enum (fuel total K : Nat) (ht : total < 2147483648)
    (hK : K ≤ total) (hf : total + 2 ≤ fuel) :
    PartitionCombinations fuel total (K : Int) =
      some (enum K 1 ((List.range total).map (fun (k : Nat) => (k : Int)))) := by
  unfold PartitionCombinations
  simp only [base_eq total ht]
  rw [PartitionCombinations.f_eq_enum total ht K fuel _ 1 [] [] (nodup_base total) (le_refl 1)
    (by omega) (by simp) (by simpa using hK) (by simpa using hf)]
  simp

/-! ## `DiffSum`: the loops compute the wrapped sum over all pairs -/

theorem toInt_toInt_add (x y : Int) : toInt (toInt x + y) = toInt (x + y) := by
  unfold toInt; omega

theorem toInt_idem (x : Int) : toInt (toInt x) = toInt x := by
  unfold toInt; omega

theorem absDiff_comm (a b : Int) : absDiff a b = absDiff b a := by
  unfold absDiff
  have h : |toInt (a - b)| = |toInt (b - a)| := by
    rw [Int.abs_eq_natAbs, Int.abs_eq_natAbs]
    unfold toInt
    omega
  rw [h]

theorem absDiff_self (a : Int) : absDiff a a = 0 := by
  unfold absDiff
  simp [toInt]

/-- The inner loop of `DiffSum` adds the terms for the entries after position `i`. -/
theorem foldl_index (F : Int → Int → Int) :
    ∀ (l pre : List Int) (d : Int),
      (List.range' pre.length l.length).foldl (fun d j => F ((pre ++ l).getD j 0) d) d =
        l.foldl (fun d b => F b d) d := by
  intro l
  induction l with
  | nil => intro pre d; simp
  | cons b l ih =>
    intro pre d
    have h := ih (pre ++ [b]) (F b d)
    simp only [List.length_append, List.length_singleton, List.append_assoc,
      List.singleton_append] at h
    have hb : (pre ++ b :: l).getD pre.length 0 = b := by
      rw [List.getD_eq_getElem?_getD, List.getElem?_append_right (le_refl _)]
      simp
    simp only [List.length_cons, List.range'_succ, List.foldl_cons]
    rw [hb, h]

theorem foldl_toInt_add (t : Int → Int) :
    ∀ (l : List Int) (d : Int),
      toInt (l.foldl (fun d b => toInt (d + t b)) d) = toInt (d + (l.map t).sum) := by
  intro l
  induction l with
  | nil => intro d; simp
  | cons b l ih =>
    intro d
    simp only [List.foldl_cons, List.map_cons, List.sum_cons]
    rw [ih, toInt_toInt_add, add_assoc]

theorem foldl_toInt_range (t : Int → Int) :
    ∀ (l : List Int) (d : Int), toInt d = d →
      toInt (l.foldl (fun d b => toInt (d + t b)) d) = l.foldl (fun d b => toInt (d + t b)) d := by
  intro l
  induction l with
  | nil => intro d hd; simpa using hd
  | cons b l ih =>
    intro d _
    simp only [List.foldl_cons]
    exact ih _ (toInt_idem _)

theorem DiffSum.step_eq (pre l : List Int) (a : Int) (j : Nat) (d : Int) :
    DiffSum.step (pre ++ a :: l) pre.length j d =
      toInt (d + absDiff a ((pre ++ a :: l).getD j 0)) := by
  have hb : (pre ++ a :: l).getD pre.length 0 = a := by
    rw [List.getD_eq_getElem?_getD, List.getElem?_append_right (le_refl _)]
    simp
  unfold DiffSum.step absDiff
  rw [hb]

/-- The two loops of `DiffSum`, started in the middle of `sums`; `n` is `sums.size()`. -/
theorem DiffSum.loops_eq :
    ∀ (l pre : List Int) (d : Int) (n : Nat), n = pre.length + l.length → toInt d = d →
      toInt ((List.range' pre.length l.length).foldl
        (fun diff_sum i =>
          (List.range' (i + 1) (n - (i + 1))).foldl
            (fun diff_sum j => DiffSum.step (pre ++ l) i j diff_sum) diff_sum) d)
        = toInt (d + pairSum l) ∧
      toInt ((List.range' pre.length l.length).foldl
        (fun diff_sum i =>
          (List.range' (i + 1) (n - (i + 1))).foldl
            (fun diff_sum j => DiffSum.step (pre ++ l) i j diff_sum) diff_sum) d)
        = (List.range' pre.length l.length).foldl
        (fun diff_sum i =>
          (List.range' (i + 1) (n - (i + 1))).foldl
            (fun diff_sum j => DiffSum.step (pre ++ l) i j diff_sum) diff_sum) d := by
  intro l
  induction l with
  | nil =>
    intro pre d n _ hd
    simp [pairSum, hd]
  | cons a l ih =>
    intro pre d n hn hd
    have hlen : n - (pre.length + 1) = l.length := by
      simp only [List.length_cons] at hn; omega
    have hinner : (List.range' (pre.length + 1) (n - (pre.length + 1))).foldl
        (fun diff_sum j => DiffSum.step (pre ++ a :: l) pre.length j diff_sum) d =
        l.foldl (fun d b => toInt (d + absDiff a b)) d := by
      rw [hlen]
      have h := foldl_index (fun b d => toInt (d + absDiff a b)) l (pre ++ [a]) d
      simp only [List.length_append, List.length_singleton, List.append_assoc,
        List.singleton_append] at h
      rw [← h]
      congr 1
      funext d j
      exact DiffSum.step_eq pre l a j d
    have h1 := ih (pre ++ [a]) (l.foldl (fun d b => toInt (d + absDiff a b)) d) n
      (by rw [hn]; simp only [List.length_append, List.length_cons, List.length_nil]; omega)
      (foldl_toInt_range _ l d hd)
    simp only [List.length_append, List.length_singleton, List.append_assoc,
      List.singleton_append] at h1
    simp only [List.length_cons, List.range'_succ, List.foldl_cons]
    rw [hinner]
    refine ⟨?_, h1.2⟩
    rw [h1.1, ← toInt_toInt_add, foldl_toInt_add, toInt_toInt_add, pairSum, add_assoc]

/-- The value of `DiffSum`: the sum over all pairs of groups of the absolute differences of
their totals, stored in an `int`. -/
theorem DiffSum_eq (products : List Product) (candidates : List (List Int))
    (hlen : candidates.length < 18446744073709551616) :
    DiffSum products candidates =
      toInt (pairSum (candidates.map (fun candidate => TotalWeights products candidate))) := by
  unfold DiffSum
  simp only []
  generalize hs : candidates.map (fun candidate => TotalWeights products candidate) = sums
  have hl : sums.length < 18446744073709551616 := by rw [← hs]; simpa using hlen
  clear hs hlen
  by_cases h0 : sums = []
  · subst h0
    generalize toSizeT (((([] : List Int).length : Nat) : Int) - 1) = n
    have : ∀ (l : List Nat) (d : Int), l.foldl (fun diff_sum i =>
        (List.range' (i + 1) (([] : List Int).length - (i + 1))).foldl
          (fun diff_sum j => DiffSum.step [] i j diff_sum) diff_sum) d = d := by
      intro l
      induction l with
      | nil => intro d; rfl
      | cons i l ih => intro d; simp only [List.foldl_cons]; rw [← ih d]; simp
    rw [this]
    simp [pairSum, toInt]
  · have hpos : 0 < sums.length := List.length_pos.mpr h0
    have hn : toSizeT ((sums.length : Int) - 1) = sums.length - 1 := by
      have h2 : (sums.length : Int) - 1 = ((sums.length - 1 : Nat) : Int) := by omega
      rw [h2, toSizeT_natCast (by omega)]
    rw [hn]
    have h := DiffSum.loops_eq sums [] 0 sums.length (by simp) (by simp [toInt])
    simp only [List.length_nil, List.nil_append, zero_add] at h
    have hr : List.range' 0 sums.length = List.range (sums.length - 1) ++ [sums.length - 1] := by
      rw [← List.range_succ, List.range_eq_range']
      congr 1
      omega
    rw [hr, List.foldl_append] at h
    simp only [List.foldl_cons, List.foldl_nil] at h
    have hz : sums.length - (sums.length - 1 + 1) = 0 := by omega
    rw [hz] at h
    simp only [List.range'_zero, List.foldl_nil] at h
    rw [← h.1, h.2]

/-! ## The sum over all pairs -/

theorem pairSum_perm {l₁ l₂ : List Int} (h : l₁.Perm l₂) : pairSum l₁ = pairSum l₂ := by
  induction h with
  | nil => rfl
  | cons a hp ih =>
    simp only [pairSum]
    rw [ih, (hp.map (absDiff a)).sum_eq]
  | swap a b l =>
    simp only [pairSum, List.map_cons, List.sum_cons]
    rw [absDiff_comm a b]
    omega
  | trans _ _ ih₁ ih₂ => exact ih₁.trans ih₂

theorem TotalWeights_eq (products : List Product) (indexes : List Int) :
    TotalWeights products indexes = toInt (exactTotal products indexes) := by
  unfold TotalWeights exactTotal
  have h1 := foldl_toInt_add (weightAt products) indexes 0
  have h2 := foldl_toInt_range (weightAt products) indexes 0 (by simp [toInt])
  rw [zero_add] at h1
  rw [← h1, h2]

theorem sum_abs_nonneg (a : Int) (l : List Int) : 0 ≤ (l.map (fun b => |a - b|)).sum := by
  induction l with
  | nil => simp
  | cons b l ih =>
    simp only [List.map_cons, List.sum_cons]
    have := abs_nonneg (a - b)
    omega

theorem exactPairs_nonneg (l : List Int) : 0 ≤ exactPairs l := by
  induction l with
  | nil => simp [exactPairs]
  | cons a l ih =>
    simp only [exactPairs]
    have := sum_abs_nonneg a l
    omega

theorem absDiff_eq_abs {a b : Int} (h : |a - b| ≤ 2147483647) : absDiff a b = |a - b| := by
  unfold absDiff
  rw [Int.abs_eq_natAbs] at h
  have h1 : toInt (a - b) = a - b := by unfold toInt; omega
  rw [h1, Int.abs_eq_natAbs]
  unfold toInt
  omega

theorem sum_absDiff_eq (a : Int) (l : List Int)
    (h : (l.map (fun b => |a - b|)).sum ≤ 2147483647) :
    (l.map (absDiff a)).sum = (l.map (fun b => |a - b|)).sum := by
  induction l with
  | nil => simp
  | cons b l ih =>
    simp only [List.map_cons, List.sum_cons] at h ⊢
    have h1 := sum_abs_nonneg a l
    have h2 := abs_nonneg (a - b)
    rw [ih (by omega), absDiff_eq_abs (by omega)]

theorem pairSum_eq_exactPairs (l : List Int) (h : exactPairs l ≤ 2147483647) :
    pairSum l = exactPairs l := by
  induction l with
  | nil => rfl
  | cons a l ih =>
    simp only [exactPairs] at h
    have h1 := sum_abs_nonneg a l
    have h2 := exactPairs_nonneg l
    simp only [pairSum, exactPairs]
    rw [ih (by omega), sum_absDiff_eq a l (by omega)]

theorem sum_abs_eq_zero (a : Int) (l : List Int) :
    (l.map (fun b => |a - b|)).sum = 0 ↔ ∀ b ∈ l, b = a := by
  induction l with
  | nil => simp
  | cons b l ih =>
    simp only [List.map_cons, List.sum_cons, List.mem_cons, forall_eq_or_imp]
    have h1 := sum_abs_nonneg a l
    have h2 := abs_nonneg (a - b)
    constructor
    · intro h
      have h3 : |a - b| = 0 := by omega
      have h4 : (l.map (fun b => |a - b|)).sum = 0 := by omega
      refine ⟨?_, ih.mp h4⟩
      have := abs_eq_zero.mp h3
      omega
    · rintro ⟨hb, hl⟩
      rw [ih.mpr hl, hb]
      simp

theorem exactPairs_eq_zero (l : List Int) :
    exactPairs l = 0 ↔ ∀ a ∈ l, ∀ b ∈ l, a = b := by
  induction l with
  | nil => simp [exactPairs]
  | cons a l ih =>
    simp only [exactPairs]
    have h1 := sum_abs_nonneg a l
    have h2 := exactPairs_nonneg l
    constructor
    · intro h
      have h3 : (l.map (fun b => |a - b|)).sum = 0 := by omega
      have h4 : exactPairs l = 0 := by omega
      have h5 := (sum_abs_eq_zero a l).mp h3
      intro x hx y hy
      have hxa : x = a := by
        rcases List.mem_cons.mp hx with h | h
        · exact h
        · exact h5 x h
      have hya : y = a := by
        rcases List.mem_cons.mp hy with h | h
        · exact h
        · exact h5 y h
      rw [hxa, hya]
    · intro h
      have h3 : (l.map (fun b => |a - b|)).sum = 0 :=
        (sum_abs_eq_zero a l).mpr
          (fun b hb => h b (List.mem_cons_of_mem a hb) a (List.mem_cons_self a l))
      have h4 : exactPairs l = 0 :=
        ih.mpr (fun x hx y hy => h x (List.mem_cons_of_mem a hx) y (List.mem_cons_of_mem a hy))
      omega

theorem pairSum_eq_zero_of_eq (l : List Int) (h : ∀ a ∈ l, ∀ b ∈ l, a = b) : pairSum l = 0 := by
  induction l with
  | nil => rfl
  | cons a l ih =>
    simp only [pairSum]
    rw [ih (fun x hx y hy => h x (List.mem_cons_of_mem a hx) y (List.mem_cons_of_mem a hy))]
    have : (l.map (absDiff a)).sum = 0 := by
      apply List.sum_eq_zero
      intro x hx
      obtain ⟨b, hb, rfl⟩ := List.mem_map.mp hx
      rw [h b (List.mem_cons_of_mem a hb) a (List.mem_cons_self a l)]
      exact absDiff_self a
    omega

/-! ## The search loop and the output loop of `main` -/

/-- The state of the search loop after the partitions `l`, started in the state `st`: either
no partition was selected and none scores below `st.2`, or the selected partition is the
first one in `l` with the least score. -/
theorem search_foldl (products : List Product) :
    ∀ (l : List (List (List Int))) (st : List (List Int) × Int),
      (l.foldl (fun state conbination =>
          if DiffSum products conbination < state.2 then
            (conbination, DiffSum products conbination) else state) st = st ∧
        ∀ q ∈ l, st.2 ≤ DiffSum products q) ∨
      (∃ pre post sel, l = pre ++ sel :: post ∧
        l.foldl (fun state conbination =>
          if DiffSum products conbination < state.2 then
            (conbination, DiffSum products conbination) else state) st
          = (sel, DiffSum products sel) ∧
        DiffSum products sel < st.2 ∧
        (∀ q ∈ pre, DiffSum products sel < DiffSum products q) ∧
        (∀ q ∈ post, DiffSum products sel ≤ DiffSum products q)) := by
  intro l
  induction l with
  | nil => intro st; left; simp
  | cons c l ih =>
    intro st
    simp only [List.foldl_cons]
    by_cases hc : DiffSum products c < st.2
    · rw [if_pos hc]
      right
      rcases ih (c, DiffSum products c) with ⟨h1, h2⟩ | ⟨pre, post, sel, hl, h1, h2, h3, h4⟩
      · exact ⟨[], l, c, rfl, h1, hc, by simp, h2⟩
      · refine ⟨c :: pre, post, sel, by rw [hl]; rfl, h1, lt_trans h2 hc, ?_, h4⟩
        intro q hq
        rcases List.mem_cons.mp hq with rfl | hq
        · exact h2
        · exact h3 q hq
    · rw [if_neg hc]
      rcases ih st with ⟨h1, h2⟩ | ⟨pre, post, sel, hl, h1, h2, h3, h4⟩
      · left
        refine ⟨h1, ?_⟩
        intro q hq
        rcases List.mem_cons.mp hq with rfl | hq
        · exact not_lt.mp hc
        · exact h2 q hq
      · right
        refine ⟨c :: pre, post, sel, by rw [hl]; rfl, h1, h2, ?_, h4⟩
        intro q hq
        rcases List.mem_cons.mp hq with rfl | hq
        · exact lt_of_lt_of_le h2 (not_lt.mp hc)
        · exact h3 q hq

/-- The search loop of `main` on the partitions `l`. -/
theorem main.search_spec (products : List Product) (l : List (List (List Int))) :
    (main.search products l = ([], INT_MAX) ∧ ∀ q ∈ l, INT_MAX ≤ DiffSum products q) ∨
    (∃ pre post sel, l = pre ++ sel :: post ∧
      main.search products l = (sel, DiffSum products sel) ∧
      DiffSum products sel < INT_MAX ∧
      (∀ q ∈ pre, DiffSum products sel < DiffSum products q) ∧
      (∀ q ∈ post, DiffSum products sel ≤ DiffSum products q)) :=
  search_foldl products l ([], INT_MAX)

theorem toSizeT_of_nat (k : Nat) (h : k < 18446744073709551616) (i : Int) (hi : i = (k : Int)) :
    toSizeT i = k := by
  rw [hi]
  exact toSizeT_natCast h

/-- The output loop of `main` stays inside `ret` when `ret` has a group for every truck. -/
theorem main.print_printed (products : List Product) (ret : List (List Int))
    (hret : ret.length < 18446744073709551616) :
    ∀ (k j : Nat) (lines : List String), j + k ≤ ret.length →
      ∃ lines1, main.print products ret k ((j : Int) + 1) lines = Outcome.printed lines1 := by
  intro k
  induction k with
  | zero => intro j lines _; exact ⟨lines, rfl⟩
  | succ k ih =>
    intro j lines hj
    rw [main.print]
    have hidx : toSizeT ((j : Int) + 1 - 1) = j := toSizeT_of_nat j (by omega) _ (by omega)
    rw [hidx]
    have hlt : j < ret.length := by omega
    rw [List.getElem?_eq_getElem hlt]
    simp only []
    have := ih (j + 1) (lines ++ ["truck_" ++ toString ((j : Int) + 1) ++ ":" ++
      ProductIDString products ret[j]]) (by omega)
    simpa [add_assoc] using this

/-! ## Invariants of the calls of the lambda of `PartitionCombinations` -/

theorem Combinations.f_sublist (n : Int) (rest : List Int) :
    ∀ (choices s : List Int), s ∈ Combinations.f n rest choices [] →
      ∃ t, t.Sublist rest ∧ s = choices ++ t := by
  induction rest with
  | nil =>
    intro choices s hs
    simp only [Combinations.f] at hs
    split at hs
    · simp only [List.nil_append, List.mem_singleton] at hs
      exact ⟨[], List.Sublist.refl _, by simp [hs]⟩
    · simp at hs
  | cons x rest ih =>
    intro choices s hs
    simp only [Combinations.f] at hs
    split at hs
    · simp only [List.nil_append, List.mem_singleton] at hs
      exact ⟨[], List.nil_sublist _, by simp [hs]⟩
    · rw [Combinations.f_ret] at hs
      rcases List.mem_append.mp hs with h | h
      · obtain ⟨t, ht, rfl⟩ := ih (choices ++ [x]) s h
        exact ⟨x :: t, ht.cons₂ x, by simp⟩
      · obtain ⟨t, ht, rfl⟩ := ih choices s h
        exact ⟨t, ht.cons x, rfl⟩

theorem mem_Combinations_sublist {elements s : List Int} {count : Int}
    (h : s ∈ Combinations elements count) : s.Sublist elements := by
  obtain ⟨t, ht, rfl⟩ := Combinations.f_sublist count elements [] s h
  simpa using ht

/-- In every call that is made, `v` has distinct entries and the sizes of the groups of `acc`
and the size of `v` add up to `total`. -/
theorem Reached.invariant (total : Nat) (partitions : Int) (ht : total < 2147483648)
    (c : Call) (h : Reached total partitions c) :
    c.v.Nodup ∧ c.acc.foldl (fun sum g => toSizeT (sum + g.length)) 0 + c.v.length = total := by
  induction h with
  | initial =>
    rw [base_eq total ht]
    exact ⟨nodup_base total, by simp⟩
  | step c i candidate _ _ _ _ hcand ih =>
    obtain ⟨hnd, hsum⟩ := ih
    have hsub := mem_Combinations_sublist hcand
    have hlen := length_filter_notMem hnd hsub
    have hcl := hsub.length_le
    simp only [VectorDiff_eq_filter]
    refine ⟨nodup_filter_notMem candidate hnd, ?_⟩
    rw [List.foldl_append]
    simp only [List.foldl_cons, List.foldl_nil]
    generalize c.acc.foldl (fun sum g => toSizeT (sum + g.length)) 0 = S at hsum
    rw [toSizeT_add S candidate.length (by omega)]
    omega

/-- In `PartitionCombinations(3, 2)` the call `f([2], 1, 0, [[0], [1]])` is made: the first
group is `[0]`, the second is `[1]`, and the index `2` is left over. -/
theorem reached_example : Reached 3 2 ⟨[2], 1, 0, [[0], [1]]⟩ := by
  have h1 : Reached 3 2 ⟨[1, 2], 1, 1, [[0]]⟩ :=
    Reached.step ⟨(List.range 3).map (fun (k : Nat) => toInt (k : Int)), 1, 2, []⟩ 1 [0]
      Reached.initial (by decide) (by decide) (LoopValue.first (by decide)) (by decide)
  exact Reached.step ⟨[1, 2], 1, 1, [[0]]⟩ 1 [1] h1 (by decide) (by decide)
    (LoopValue.first (by decide)) (by decide)

/-! ## A loop whose bound is `SIZE_MAX` does not end -/

theorem toSizeT_lt (x : Int) : toSizeT x < 18446744073709551616 := by
  unfold toSizeT; omega

/-- With the bound `SIZE_MAX` the condition `i <= limit` holds for every `size_t`, so no
budget is enough for the loop. -/
theorem forSizeT_none (body : Nat → List (List (List Int)) → Option (List (List (List Int)))) :
    ∀ (fuel i : Nat) (ret : List (List (List Int))), i < 18446744073709551616 →
      forSizeT body 18446744073709551615 fuel i ret = none := by
  intro fuel
  induction fuel with
  | zero => intro i ret _; rfl
  | succ fuel ih =>
    intro i ret hi
    rw [forSizeT, if_pos (by omega)]
    cases body i ret with
    | none => rfl
    | some ret1 => exact ih _ ret1 (toSizeT_lt _)

theorem PartitionCombinations_one_three (fuel : Nat) : PartitionCombinations fuel 1 3 = none := by
  cases fuel with
  | zero => rfl
  | succ fuel =>
    unfold PartitionCombinations
    rw [PartitionCombinations.f]
    have hlim : toSizeT ((toSizeT (((([(0 : Int)].length : Nat) : Int)) - (toSizeT 3 : Nat)) : Nat) + 1)
        = 18446744073709551615 := by decide
    have hbase : (List.range 1).map (fun (k : Nat) => toInt (k : Int)) = [0] := by decide
    simp only [hbase, hlim]
    rw [if_neg (by decide), if_neg (by decide)]
    exact forSizeT_none _ fuel 1 [] (by decide)

/-! ## The elements of `enum` -/

theorem perm_append_filter_notMem {v c : List Int} (hv : v.Nodup) (hc : c.Sublist v) :
    (c ++ v.filter (fun x => decide (x ∉ c))).Perm v := by
  have hcn : c.Nodup := hv.sublist hc
  have hfn := nodup_filter_notMem c hv
  rw [List.perm_ext_iff_of_nodup _ hv]
  · intro a
    simp only [List.mem_append, List.mem_filter, decide_eq_true_eq]
    constructor
    · rintro (h | h)
      · exact hc.subset h
      · exact h.1
    · intro h
      by_cases ha : a ∈ c
      · exact Or.inl ha
      · exact Or.inr ⟨h, ha⟩
  · rw [List.nodup_append]
    refine ⟨hcn, hfn, ?_⟩
    intro a ha hb
    simp only [List.mem_filter, decide_eq_true_eq] at hb
    exact hb.2 ha

theorem length_le_sum_of_chain (m : Nat) (hm : 1 ≤ m) :
    ∀ (l : List Nat), List.Chain (· ≤ ·) m l → l.length ≤ l.sum := by
  intro l
  induction l generalizing m with
  | nil => intro _; simp
  | cons a l ih =>
    intro h
    rw [List.chain_cons] at h
    have := ih a (by omega) h.2
    simp only [List.length_cons, List.sum_cons]
    omega

theorem mem_enum :
    ∀ (p m : Nat) (v : List Int) (q : List (List Int)), v.Nodup → 1 ≤ m →
      (q ∈ enum p m v ↔
        q.length = p ∧ List.Chain (· ≤ ·) m (q.map List.length) ∧
          (∀ g ∈ q, g.Sublist v) ∧ q.flatten.Perm v) := by
  intro p
  induction p with
  | zero =>
    intro m v q _ _
    by_cases hv : v = []
    · subst hv
      simp only [enum, if_true, List.mem_singleton]
      constructor
      · rintro rfl; simp
      · rintro ⟨h, _⟩; exact List.length_eq_zero.mp h
    · simp only [enum, if_neg hv, List.not_mem_nil, false_iff]
      rintro ⟨h, _, _, hperm⟩
      rw [List.length_eq_zero.mp h] at hperm
      exact hv (by simpa using hperm.symm)
  | succ p ih =>
    intro m v q hv hm
    simp only [enum, List.mem_flatMap, List.mem_range'_1, List.mem_map, mem_combs]
    constructor
    · rintro ⟨i, ⟨hmi, _⟩, c, ⟨hc, hci⟩, q1, hq1, rfl⟩
      rw [ih i _ q1 (nodup_filter_notMem c hv) (by omega)] at hq1
      obtain ⟨hl, hch, hsub, hperm⟩ := hq1
      refine ⟨by simp [hl], ?_, ?_, ?_⟩
      · simp only [List.map_cons, List.chain_cons]
        exact ⟨by omega, by rw [hci]; exact hch⟩
      · intro g hg
        rcases List.mem_cons.mp hg with rfl | hg
        · exact hc
        · exact (hsub g hg).trans (List.filter_sublist v)
      · rw [List.flatten_cons]
        exact ((List.perm_append_left_iff c).mpr hperm).trans (perm_append_filter_notMem hv hc)
    · rintro ⟨hl, hch, hsub, hperm⟩
      cases q with
      | nil => simp at hl
      | cons c q1 =>
        simp only [List.map_cons, List.chain_cons] at hch
        simp only [List.length_cons, Nat.add_right_cancel_iff] at hl
        rw [List.flatten_cons] at hperm
        have hc : c.Sublist v := hsub c (List.mem_cons_self c q1)
        have hnd : (c ++ q1.flatten).Nodup := hperm.nodup_iff.mpr hv
        have hperm1 : q1.flatten.Perm (v.filter (fun x => decide (x ∉ c))) :=
          (List.perm_append_left_iff c).mp (hperm.trans (perm_append_filter_notMem hv hc).symm)
        have hsum := length_le_sum_of_chain c.length (by omega) _ hch.2
        have hlen : c.length + (q1.map List.length).sum = v.length := by
          rw [← List.length_flatten, ← List.length_append]; exact hperm.length_eq
        rw [List.length_map] at hsum
        refine ⟨c.length, ⟨hch.1, by omega⟩, c, ⟨hc, rfl⟩, q1, ?_, rfl⟩
        rw [ih c.length _ q1 (nodup_filter_notMem c hv) (by omega)]
        refine ⟨hl, hch.2, ?_, hperm1⟩
        intro g hg
        have hgv : g.Sublist v := hsub g (List.mem_cons_of_mem c hg)
        have hfg : g.filter (fun x => decide (x ∉ c)) = g := by
          rw [List.filter_eq_self]
          intro a ha
          simp only [decide_eq_true_eq]
          intro hac
          have hdisj := (List.nodup_append.mp hnd).2.2
          exact hdisj hac (List.mem_flatten.mpr ⟨g, hg, ha⟩)
        rw [← hfg]
        exact hgv.filter _

theorem nodup_enum :
    ∀ (p m : Nat) (v : List Int), v.Nodup → (enum p m v).Nodup := by
  intro p
  induction p with
  | zero =>
    intro m v _
    simp only [enum]
    split <;> simp
  | succ p ih =>
    intro m v hv
    simp only [enum]
    rw [List.nodup_flatMap]
    constructor
    · intro i _
      rw [List.nodup_flatMap]
      constructor
      · intro c _
        exact (ih i _ (nodup_filter_notMem c hv)).map (fun a b hab => (List.cons.inj hab).2)
      · refine (nodup_combs i hv).pairwise_of_forall_ne ?_
        intro c _ d _ hcd q hq1 hq2
        simp only [List.mem_map] at hq1 hq2
        obtain ⟨q1, _, rfl⟩ := hq1
        obtain ⟨q2, _, h⟩ := hq2
        exact hcd (List.cons.inj h).1.symm
    · refine (List.nodup_range' m _).pairwise_of_forall_ne ?_
      intro i _ j _ hij q hq1 hq2
      simp only [List.mem_flatMap, List.mem_map, mem_combs] at hq1 hq2
      obtain ⟨c, ⟨_, hc⟩, q1, _, rfl⟩ := hq1
      obtain ⟨d, ⟨_, hd⟩, q2, _, h⟩ := hq2
      have := (List.cons.inj h).1
      subst this
      omega

theorem enum_ne_nil :
    ∀ (p m : Nat) (v : List Int), v.Nodup → 1 ≤ m → m * (p + 1) ≤ v.length →
      ∃ q, q ∈ enum (p + 1) m v := by
  intro p
  induction p with
  | zero =>
    intro m v _ hm hv
    refine ⟨[v], ?_⟩
    simp only [enum, List.mem_flatMap, List.mem_range'_1, List.mem_map, mem_combs]
    refine ⟨v.length, ⟨by omega, by omega⟩, v, ⟨List.Sublist.refl v, rfl⟩, [], ?_, rfl⟩
    have : v.filter (fun x => decide (x ∉ v)) = [] := by
      rw [List.filter_eq_nil_iff]
      intro a ha
      simpa using ha
    simp [this]
  | succ p ih =>
    intro m v hnd hm hv
    have he : m * (p + 1 + 1) = m * (p + 1) + m := by ring
    have hmv : m ≤ v.length := by omega
    have hc : (v.take m).Sublist v := List.take_sublist m v
    have hcl : (v.take m).length = m := by simp [hmv]
    have hfl := length_filter_notMem hnd hc
    obtain ⟨q, hq⟩ := ih m (v.filter (fun x => decide (x ∉ v.take m)))
      (nodup_filter_notMem _ hnd) hm (by omega)
    refine ⟨v.take m :: q, ?_⟩
    rw [enum]
    simp only [List.mem_flatMap, List.mem_range'_1, List.mem_map, mem_combs]
    refine ⟨m, ⟨le_refl m, ?_⟩, v.take m, ⟨hc, hcl⟩, q, hq, rfl⟩
    have : p + 1 ≤ m * (p + 1) := Nat.le_mul_of_pos_left _ hm
    omega

/-! ## The enumeration in terms of partitions of the indices -/

theorem chain_one_iff (l : List Nat) :
    List.Chain (· ≤ ·) 1 l ↔ List.Chain' (· ≤ ·) l ∧ ∀ a ∈ l, 1 ≤ a := by
  cases l with
  | nil => simp
  | cons a l =>
    simp only [List.chain_cons, List.Chain', List.mem_cons, forall_eq_or_imp]
    constructor
    · rintro ⟨h1, hc⟩
      exact ⟨hc, h1, fun b hb => le_trans h1 (hc.rel hb)⟩
    · rintro ⟨hc, h1, _⟩
      exact ⟨h1, hc⟩

theorem sublists_perm_iff {B : List Int} (hB : B.Sorted (· < ·)) (q : List (List Int)) :
    ((∀ g ∈ q, g.Sublist B) ∧ q.flatten.Perm B) ↔
      (∀ g ∈ q, g.Sorted (· < ·) ∧ ∀ x ∈ g, x ∈ B) ∧ q.Pairwise List.Disjoint ∧
        ∀ x ∈ B, ∃ g ∈ q, x ∈ g := by
  have hBn : B.Nodup := hB.nodup
  constructor
  · rintro ⟨hsub, hperm⟩
    have hfn : q.flatten.Nodup := hperm.nodup_iff.mpr hBn
    refine ⟨fun g hg => ⟨hB.sublist (hsub g hg), fun x hx => (hsub g hg).subset hx⟩,
      (List.nodup_flatten.mp hfn).2, ?_⟩
    intro x hx
    exact List.mem_flatten.mp (hperm.mem_iff.mpr hx)
  · rintro ⟨hg, hdisj, hcov⟩
    constructor
    · intro g hgq
      exact List.sublist_of_subperm_of_sorted
        ((hg g hgq).1.nodup.subperm (fun x hx => (hg g hgq).2 x hx)) (hg g hgq).1 hB
    · rw [List.perm_ext_iff_of_nodup
        (List.nodup_flatten.mpr ⟨fun g hgq => (hg g hgq).1.nodup, hdisj⟩) hBn]
      intro a
      constructor
      · intro ha
        obtain ⟨g, hgq, hag⟩ := List.mem_flatten.mp ha
        exact (hg g hgq).2 a hag
      · intro ha
        exact List.mem_flatten.mpr (hcov a ha)

/-- The set of group sequences that `PartitionCombinations(N, K)` returns. -/
theorem mem_enum_base (N K : Nat) (q : List (List Int)) :
    q ∈ enum K 1 ((List.range N).map (fun (k : Nat) => (k : Int))) ↔
      q.length = K ∧
      (∀ g ∈ q, g ≠ [] ∧ g.Sorted (· < ·) ∧ ∀ x ∈ g, 0 ≤ x ∧ x < N) ∧
      q.Pairwise List.Disjoint ∧
      (∀ k : Nat, k < N → ∃ g ∈ q, (k : Int) ∈ g) ∧
      List.Chain' (· ≤ ·) (q.map List.length) := by
  rw [mem_enum K 1 _ q (nodup_base N) (le_refl 1), chain_one_iff,
    sublists_perm_iff (sorted_base N) q]
  have hmem : ∀ x : Int, x ∈ (List.range N).map (fun (k : Nat) => (k : Int)) ↔ 0 ≤ x ∧ x < N :=
    fun x => mem_base
  generalize (List.range N).map (fun (k : Nat) => (k : Int)) = B at hmem
  constructor
  · rintro ⟨hl, ⟨hch, hne⟩, hg, hd, hc⟩
    refine ⟨hl, fun g hgq => ⟨?_, (hg g hgq).1, fun x hx => (hmem x).mp ((hg g hgq).2 x hx)⟩,
      hd, ?_, hch⟩
    · have := hne g.length (List.mem_map_of_mem List.length hgq)
      intro h0
      rw [h0] at this
      simp at this
    · intro k hk
      exact hc (k : Int) ((hmem _).mpr ⟨by omega, by omega⟩)
  · rintro ⟨hl, hg, hd, hc, hch⟩
    refine ⟨hl, ⟨hch, ?_⟩,
      fun g hgq => ⟨(hg g hgq).2.1, fun x hx => (hmem x).mpr ((hg g hgq).2.2 x hx)⟩, hd, ?_⟩
    · intro a ha
      obtain ⟨g, hgq, rfl⟩ := List.mem_map.mp ha
      exact List.length_pos.mpr (hg g hgq).1
    · intro x hx
      obtain ⟨h0, h1⟩ := (hmem x).mp hx
      obtain ⟨k, rfl⟩ := Int.eq_ofNat_of_zero_le h0
      exact hc k (by omega)

theorem count_eq_one_of_nodup {α : Type} [BEq α] [LawfulBEq α] {a : α} :
    ∀ {l : List α}, l.Nodup → a ∈ l → List.count a l = 1
  | [], _, h => by simp at h
  | b :: l, hd, h => by
    rw [List.nodup_cons] at hd
    rw [List.count_cons]
    by_cases hs : b = a
    · subst hs
      have : List.count b l = 0 := List.count_eq_zero.mpr hd.1
      simp [this]
    · have hm : a ∈ l := by
        rcases List.mem_cons.mp h with h | h
        · exact absurd h.symm hs
        · exact h
      have := count_eq_one_of_nodup hd.2 hm
      simp [this, hs]

/-! ## Every partition has a representative in the enumeration -/

theorem flatten_map_perm (f : List Int → List Int) (hf : ∀ g, (f g).Perm g) :
    ∀ q : List (List Int), (q.map f).flatten.Perm q.flatten := by
  intro q
  induction q with
  | nil => simp
  | cons g q ih =>
    simp only [List.map_cons, List.flatten_cons]
    exact (hf g).append ih

/-- The groups of a partition `q` of `B`, each sorted and then ordered by size, are an element
of the enumeration. -/
theorem exists_mem_enum (K : Nat) {B : List Int} (hB : B.Sorted (· < ·)) (q : List (List Int))
    (hl : q.length = K) (hne : ∀ g ∈ q, g ≠ []) (hperm : q.flatten.Perm B) :
    ∃ q1 ∈ enum K 1 B, q1.Perm (q.map (fun g => g.insertionSort (· ≤ ·))) := by
  haveI : IsTotal (List Int) (fun a b => a.length ≤ b.length) := ⟨fun a b => le_total _ _⟩
  haveI : IsTrans (List Int) (fun a b => a.length ≤ b.length) := ⟨fun a b c => le_trans⟩
  have hBn : B.Nodup := hB.nodup
  refine ⟨(q.map (fun g => g.insertionSort (· ≤ ·))).insertionSort
    (fun a b => a.length ≤ b.length), ?_, List.perm_insertionSort _ _⟩
  generalize hq1 : (q.map (fun g => g.insertionSort (· ≤ ·))).insertionSort
    (fun a b => a.length ≤ b.length) = q1
  have hp1 : q1.Perm (q.map (fun g => g.insertionSort (· ≤ ·))) := by
    rw [← hq1]; exact List.perm_insertionSort _ _
  have hs1 : q1.Sorted (fun a b => a.length ≤ b.length) := by
    rw [← hq1]; exact List.sorted_insertionSort _ _
  have hmem : ∀ g1 ∈ q1, ∃ g ∈ q, g1 = g.insertionSort (· ≤ ·) := by
    intro g1 hg1
    obtain ⟨g, hg, rfl⟩ := List.mem_map.mp (hp1.mem_iff.mp hg1)
    exact ⟨g, hg, rfl⟩
  have hflat : q1.flatten.Perm B :=
    (hp1.flatten.trans (flatten_map_perm _ (fun g => List.perm_insertionSort _ g) q)).trans hperm
  have hfn : q1.flatten.Nodup := hflat.nodup_iff.mpr hBn
  rw [mem_enum K 1 B q1 hBn (le_refl 1), chain_one_iff]
  refine ⟨by rw [hp1.length_eq, List.length_map, hl], ⟨?_, ?_⟩, ?_, hflat⟩
  · exact (List.pairwise_map.mpr hs1).chain'
  · intro a ha
    obtain ⟨g1, hg1, rfl⟩ := List.mem_map.mp ha
    obtain ⟨g, hg, rfl⟩ := hmem g1 hg1
    rw [List.length_insertionSort]
    exact List.length_pos.mpr (hne g hg)
  · intro g1 hg1
    have hsub : g1.Sublist q1.flatten := List.sublist_flatten_of_mem hg1
    have hnd : g1.Nodup := hfn.sublist hsub
    obtain ⟨g, _, hg1eq⟩ := hmem g1 hg1
    have hsorted : g1.Sorted (· ≤ ·) := by rw [hg1eq]; exact List.sorted_insertionSort _ _
    exact List.sublist_of_subperm_of_sorted
      (hnd.subperm (fun x hx => hflat.subset (hsub.subset hx))) (hsorted.lt_of_le hnd) hB

theorem exactTotal_perm (products : List Product) {g h : List Int} (hgh : g.Perm h) :
    exactTotal products g = exactTotal products h :=
  (hgh.map _).sum_eq

theorem TotalWeights_perm (products : List Product) {g h : List Int} (hgh : g.Perm h) :
    TotalWeights products g = TotalWeights products h := by
  rw [TotalWeights_eq, TotalWeights_eq, exactTotal_perm products hgh]

theorem DiffSum_eq_of_totals_perm (products : List Product) (p q : List (List Int))
    (hlen : p.length < 18446744073709551616)
    (h : (p.map (TotalWeights products)).Perm (q.map (TotalWeights products))) :
    DiffSum products q = DiffSum products p := by
  have hq : q.length < 18446744073709551616 := by
    have := h.length_eq
    simp only [List.length_map] at this
    omega
  rw [DiffSum_eq products p hlen, DiffSum_eq products q hq, pairSum_perm h]

theorem DiffSum_nil (products : List Product) : DiffSum products [] = 0 := by
  rw [DiffSum_eq products [] (by simp)]
  simp [pairSum, toInt]

/-- The score of the partition that the search loop selects from the enumeration, and the
final value of `min_val`, are at most the score of every partition `q` of the indices below
`N` into `K` non-empty groups. -/
theorem search_le (products : List Product) (N K : Nat) (hK : K ≤ N) (hN : N < 2147483648)
    (q : List (List Int)) (hl : q.length = K) (hne : ∀ g ∈ q, g ≠ [])
    (hperm : q.flatten.Perm ((List.range N).map (fun (k : Nat) => (k : Int)))) :
    DiffSum products
      (main.search products (enum K 1 ((List.range N).map (fun (k : Nat) => (k : Int))))).1 ≤
      DiffSum products q ∧
    (main.search products (enum K 1 ((List.range N).map (fun (k : Nat) => (k : Int))))).2 ≤
      DiffSum products q := by
  obtain ⟨q1, hq1, hp1⟩ := exists_mem_enum K (sorted_base N) q hl hne hperm
  have htot : (q.map (TotalWeights products)).Perm (q1.map (TotalWeights products)) := by
    have h1 := (hp1.map (TotalWeights products)).symm
    rw [List.map_map] at h1
    have h2 : q.map (TotalWeights products ∘ fun g => g.insertionSort (· ≤ ·)) =
        q.map (TotalWeights products) :=
      List.map_congr_left (fun g _ => TotalWeights_perm products (List.perm_insertionSort _ g))
    rw [h2] at h1
    exact h1
  have heq := DiffSum_eq_of_totals_perm products q q1 (by omega) htot
  rw [← heq]
  rcases main.search_spec products (enum K 1 ((List.range N).map (fun (k : Nat) => (k : Int))))
    with ⟨h1, h2⟩ | ⟨pre, post, sel, hlist, h1, _, h3, h4⟩
  · rw [h1]
    have := h2 q1 hq1
    rw [DiffSum_nil]
    refine ⟨?_, this⟩
    unfold INT_MAX at this
    omega
  · rw [h1]
    rw [hlist] at hq1
    have hle : DiffSum products sel ≤ DiffSum products q1 := by
      rcases List.mem_append.mp hq1 with h | h
      · exact le_of_lt (h3 q1 h)
      · rcases List.mem_cons.mp h with h | h
        · rw [h]
        · exact h4 q1 h
    exact ⟨hle, hle⟩

/-- The blocks of a set partition of the indices below `N`, each written as a sorted list,
form a partition in the sense of `exists_mem_enum`. -/
theorem blocks_partition (N : Nat) (P : Finset (Finset Int))
    (hne : ∀ b ∈ P, b.Nonempty) (hdisj : ∀ b ∈ P, ∀ c ∈ P, b ≠ c → Disjoint b c)
    (hcov : ∀ x : Int, (∃ b ∈ P, x ∈ b) ↔ 0 ≤ x ∧ x < N) :
    (P.toList.map (fun b => b.sort (· ≤ ·))).length = P.card ∧
    (∀ g ∈ P.toList.map (fun b => b.sort (· ≤ ·)), g ≠ []) ∧
    (P.toList.map (fun b => b.sort (· ≤ ·))).flatten.Perm
      ((List.range N).map (fun (k : Nat) => (k : Int))) := by
  refine ⟨by simp, ?_, ?_⟩
  · intro g hg
    obtain ⟨b, hb, rfl⟩ := List.mem_map.mp hg
    have hbP : b ∈ P := Finset.mem_toList.mp hb
    obtain ⟨x, hx⟩ := hne b hbP
    exact List.ne_nil_of_mem ((Finset.mem_sort (· ≤ ·)).mpr hx)
  · rw [List.perm_ext_iff_of_nodup _ (nodup_base N)]
    · intro a
      rw [mem_base, ← hcov a, List.mem_flatten]
      constructor
      · rintro ⟨g, hg, hag⟩
        obtain ⟨b, hb, rfl⟩ := List.mem_map.mp hg
        exact ⟨b, Finset.mem_toList.mp hb, (Finset.mem_sort (· ≤ ·)).mp hag⟩
      · rintro ⟨b, hb, hab⟩
        exact ⟨b.sort (· ≤ ·), List.mem_map_of_mem _ (Finset.mem_toList.mpr hb),
          (Finset.mem_sort (· ≤ ·)).mpr hab⟩
    · rw [List.nodup_flatten]
      constructor
      · intro g hg
        obtain ⟨b, _, rfl⟩ := List.mem_map.mp hg
        exact Finset.sort_nodup _ b
      · rw [List.pairwise_map]
        refine (Finset.nodup_toList P).pairwise_of_forall_ne ?_
        intro b hb c hc hbc x hxb hxc
        have h1 : x ∈ b := (Finset.mem_sort (· ≤ ·)).mp hxb
        have h2 : x ∈ c := (Finset.mem_sort (· ≤ ·)).mp hxc
        exact Finset.disjoint_left.mp
          (hdisj b (Finset.mem_toList.mp hb) c (Finset.mem_toList.mp hc) hbc) h1 h2

/-- For every set partition `P` of the indices below `N` into `K` non-empty blocks the
enumeration has an element whose groups, as sets, are the blocks of `P`. -/
theorem exists_mem_enum_blocks (N K : Nat) (P : Finset (Finset Int)) (hcard : P.card = K)
    (hne : ∀ b ∈ P, b.Nonempty) (hdisj : ∀ b ∈ P, ∀ c ∈ P, b ≠ c → Disjoint b c)
    (hcov : ∀ x : Int, (∃ b ∈ P, x ∈ b) ↔ 0 ≤ x ∧ x < N) :
    ∃ q ∈ enum K 1 ((List.range N).map (fun (k : Nat) => (k : Int))),
      q.length = K ∧ (q.map List.toFinset).toFinset = P := by
  obtain ⟨h1, h2, h3⟩ := blocks_partition N P hne hdisj hcov
  obtain ⟨q, hq, hp⟩ := exists_mem_enum K (sorted_base N) _ (h1.trans hcard) h2 h3
  refine ⟨q, hq, ((mem_enum_base N K q).mp hq).1, ?_⟩
  rw [List.toFinset_eq_of_perm _ _ (hp.map List.toFinset)]
  have h4 : ((P.toList.map (fun b => b.sort (· ≤ ·))).map
      (fun g => g.insertionSort (· ≤ ·))).map List.toFinset = P.toList := by
    rw [List.map_map, List.map_map]
    conv_rhs => rw [← List.map_id P.toList]
    apply List.map_congr_left
    intro b _
    simp only [Function.comp_apply, id]
    rw [List.toFinset_eq_of_perm _ _ (List.perm_insertionSort _ _), Finset.sort_toFinset]
  rw [h4, Finset.toList_toFinset]
/-! ## Claims about `Combinations` and `VectorDiff` -/

/-- C8. For a list `elements` of distinct integers and an `int` `count` with
`0 ≤ count ≤ len(elements)`, every list `s` occurs in `Combinations(elements, count)`
exactly once when `s` is a subsequence of `elements` of length `count`, and does
not occur in it otherwise. -/
theorem Combinations_count_subsequence (elements : List Int) (count : Int)
    (hd : elements.Nodup) (h0 : 0 ≤ count) (_h1 : count ≤ elements.length)
    (h2 : count ≤ INT_MAX) (s : List Int) :
    List.count s (Combinations elements count)
      = if s.Sublist elements ∧ (s.length : Int) = count then 1 else 0 := by
  rw [Combinations_eq_combs elements count h0 h2]
  have hmem : s ∈ combs count.toNat elements ↔ s.Sublist elements ∧ (s.length : Int) = count := by
    rw [mem_combs]
    constructor
    · rintro ⟨hs, hl⟩; exact ⟨hs, by omega⟩
    · rintro ⟨hs, hl⟩; exact ⟨hs, by omega⟩
  by_cases h : s.Sublist elements ∧ (s.length : Int) = count
  · rw [if_pos h]
    exact count_eq_one_of_nodup_of_mem (nodup_combs _ hd) (hmem.mpr h)
  · rw [if_neg h]
    exact List.count_eq_zero.mpr (fun hs => h (hmem.mp hs))

/-- Witness of C8 on the example of the unit test: `[1, 3]` occurs once in
`Combinations([1, 2, 3], 2)` and `[3, 1]` does not occur. -/
theorem Combinations_count_subsequence_witness :
    List.count [1, 3] (Combinations [1, 2, 3] 2) = 1
      ∧ List.count [3, 1] (Combinations [1, 2, 3] 2) = 0 :=
  ⟨(Combinations_count_subsequence [1, 2, 3] 2 (by decide) (by decide) (by decide)
      (by decide) [1, 3]).trans (by decide),
   (Combinations_count_subsequence [1, 2, 3] 2 (by decide) (by decide) (by decide)
      (by decide) [3, 1]).trans (by decide)⟩

/-- C9. For a list `elements` of length `n` and an `int` `count` with
`0 ≤ count ≤ n`, `Combinations(elements, count)` returns `C(n, count)` lists, and
`Combinations(elements, 0)` is the list whose only entry is the empty list. -/
theorem Combinations_length_choose (elements : List Int) (count : Int)
    (h0 : 0 ≤ count) (_h1 : count ≤ elements.length) (h2 : count ≤ INT_MAX) :
    (Combinations elements count).length = Nat.choose elements.length count.toNat
      ∧ Combinations elements 0 = [[]] := by
  constructor
  · rw [Combinations_eq_combs elements count h0 h2, length_combs]
  · rw [Combinations_eq_combs elements 0 (le_refl 0) (by decide)]
    simp [combs]

/-- Witness of C9: `Combinations([1, 2, 3], 2)` has `C(3, 2) = 3` entries. -/
theorem Combinations_length_choose_witness :
    (Combinations [1, 2, 3] 2).length = 3 ∧ Combinations [1, 2, 3] 0 = [[]] :=
  ⟨(Combinations_length_choose [1, 2, 3] 2 (by decide) (by decide) (by decide)).1.trans
      (by decide),
   (Combinations_length_choose [1, 2, 3] 2 (by decide) (by decide) (by decide)).2⟩

/-- C10. `VectorDiff(elements, subset)` is the list of the entries of `elements`
that do not occur in `subset`, in their order in `elements`, hence a subsequence
of `elements`.  When `elements` and `subset` have distinct entries and every
entry of `subset` occurs in `elements`, the result has
`len(elements) - len(subset)` entries and every entry of `elements` lies in
exactly one of `subset` and the result. -/
theorem VectorDiff_spec (elements subset : List Int) :
    VectorDiff elements subset = elements.filter (fun x => decide (x ∉ subset))
      ∧ (VectorDiff elements subset).Sublist elements
      ∧ (elements.Nodup → subset.Nodup → (∀ x ∈ subset, x ∈ elements) →
          (VectorDiff elements subset).length = elements.length - subset.length
            ∧ ∀ x ∈ elements,
                (x ∈ subset ∧ x ∉ VectorDiff elements subset)
                  ∨ (x ∉ subset ∧ x ∈ VectorDiff elements subset)) := by
  refine ⟨VectorDiff_eq_filter elements subset, ?_, ?_⟩
  · rw [VectorDiff_eq_filter]; exact List.filter_sublist _
  · intro he hs hsub
    refine ⟨length_VectorDiff he hs hsub, ?_⟩
    intro x hx
    by_cases hxs : x ∈ subset
    · exact Or.inl ⟨hxs, fun h => (mem_VectorDiff.mp h).2 hxs⟩
    · exact Or.inr ⟨hxs, mem_VectorDiff.mpr ⟨hx, hxs⟩⟩

/-- Witness of C10 on the example of the unit test:
`VectorDiff([0, 1, 2, 3, 4], [2, 3]) = [0, 1, 4]`, of length `5 - 2`. -/
theorem VectorDiff_spec_witness :
    VectorDiff [0, 1, 2, 3, 4] [2, 3] = [0, 1, 4]
      ∧ (VectorDiff [0, 1, 2, 3, 4] [2, 3]).length = 5 - 2 :=
  ⟨(VectorDiff_spec [0, 1, 2, 3, 4] [2, 3]).1.trans (by decide),
   ((VectorDiff_spec [0, 1, 2, 3, 4] [2, 3]).2.2 (by decide) (by decide) (by decide)).1⟩


/-! ## Claims about `PartitionCombinations` -/

/-- C2: for `K ≤ N < 2 ^ 31` (the indices are `int`s) and a step budget of at least `N + 2`,
the call `PartitionCombinations(N, K)` returns, and every element of the result has exactly `K` groups,
none of them empty; every index `k < N` occurs once in all (the numbers of its occurrences in
the groups add up to 1), and every entry of every group is an index `0 ≤ x < N`. -/
theorem PartitionCombinations_wellformed (fuel N K : Nat) (hK : K ≤ N) (hN : N < 2147483648)
    (hf : N + 2 ≤ fuel) :
    ∃ out, PartitionCombinations fuel N (K : Int) = some out ∧
      ∀ q ∈ out, q.length = K ∧ (∀ g ∈ q, g ≠ []) ∧
        (∀ k : Nat, k < N → (q.map (fun g => g.count (k : Int))).sum = 1) ∧
        (∀ g ∈ q, ∀ x ∈ g, 0 ≤ x ∧ x < N) := by
  refine ⟨_, PartitionCombinations_eq_enum fuel N K hN hK hf, ?_⟩
  intro q hq
  have hperm := ((mem_enum K 1 _ q (nodup_base N) (le_refl 1)).mp hq).2.2.2
  obtain ⟨hl, hg, _, _, _⟩ := (mem_enum_base N K q).mp hq
  refine ⟨hl, fun g hgq => (hg g hgq).1, ?_, fun g hgq => (hg g hgq).2.2⟩
  intro k hk
  have hc := List.count_flatten (k : Int) q
  have hmem : (k : Int) ∈ (List.range N).map (fun (k : Nat) => (k : Int)) :=
    mem_base.mpr ⟨by omega, by omega⟩
  rw [hperm.count_eq, List.count_eq_one_of_mem (nodup_base N) hmem] at hc
  exact hc.symm

theorem PartitionCombinations_wellformed_witness :
    ∃ out, PartitionCombinations 5 3 ((2 : Nat) : Int) = some out ∧
      ∀ q ∈ out, q.length = 2 ∧ (∀ g ∈ q, g ≠ []) ∧
        (∀ k : Nat, k < 3 → (q.map (fun g => g.count (k : Int))).sum = 1) ∧
        (∀ g ∈ q, ∀ x ∈ g, 0 ≤ x ∧ x < ((3 : Nat) : Int)) :=
  PartitionCombinations_wellformed 5 3 2 (by decide) (by decide) (by decide)

/-- C14: for `K ≤ N` the list that `PartitionCombinations(N, K)` returns has no duplicate
entries: every element occurs in it exactly once; for `N = 3`, `K = 2` the list has exactly
3 entries. The indices are `int`s, so `N < 2 ^ 31`; with a step budget of at least `N + 2` the call
returns. -/
theorem PartitionCombinations_nodup (fuel N K : Nat) (hK : K ≤ N) (hN : N < 2147483648)
    (hf : N + 2 ≤ fuel) :
    (∃ out, PartitionCombinations fuel N (K : Int) = some out ∧ out.Nodup ∧
      ∀ q ∈ out, out.count q = 1) ∧
    (PartitionCombinations 5 3 2).map List.length = some 3 := by
  refine ⟨⟨_, PartitionCombinations_eq_enum fuel N K hN hK hf, nodup_enum K 1 _ (nodup_base N),
    fun q hq => count_eq_one_of_nodup (nodup_enum K 1 _ (nodup_base N)) hq⟩, by decide⟩

theorem PartitionCombinations_nodup_witness :
    (∃ out, PartitionCombinations 5 3 ((2 : Nat) : Int) = some out ∧ out.Nodup ∧
      ∀ q ∈ out, out.count q = 1) ∧
    (PartitionCombinations 5 3 2).map List.length = some 3 :=
  PartitionCombinations_nodup 5 3 2 (by decide) (by decide) (by decide)

/-- C17: for `K ≤ N`, in every element of `PartitionCombinations(N, K)` each group has at
least as many entries as the group in the slot before it. The indices are `int`s, so `N < 2 ^ 31`; with a step budget of at least `N + 2` the call
returns. -/
theorem PartitionCombinations_sizes_nondecreasing (fuel N K : Nat) (hK : K ≤ N)
    (hN : N < 2147483648) (hf : N + 2 ≤ fuel) :
    ∃ out, PartitionCombinations fuel N (K : Int) = some out ∧
      ∀ q ∈ out, List.Chain' (· ≤ ·) (q.map List.length) := by
  refine ⟨_, PartitionCombinations_eq_enum fuel N K hN hK hf, ?_⟩
  intro q hq
  exact ((mem_enum_base N K q).mp hq).2.2.2.2

theorem PartitionCombinations_sizes_nondecreasing_witness :
    ∃ out, PartitionCombinations 6 4 ((2 : Nat) : Int) = some out ∧
      ∀ q ∈ out, List.Chain' (· ≤ ·) (q.map List.length) :=
  PartitionCombinations_sizes_nondecreasing 6 4 2 (by decide) (by decide) (by decide)

/-- C18: for `K ≤ N`, a sequence of groups is an element of `PartitionCombinations(N, K)`
exactly when it has `K` groups, every group is a non-empty strictly increasing list of indices
below `N`, the groups are pairwise disjoint, every index below `N` is in some group, and the
group sizes do not decrease from slot to slot; for `N = 4`, `K = 2` there are 10 elements. The indices are `int`s, so `N < 2 ^ 31`; with a step budget of at least `N + 2` the call
returns. -/
theorem PartitionCombinations_characterisation (fuel N K : Nat) (hK : K ≤ N)
    (hN : N < 2147483648) (hf : N + 2 ≤ fuel) :
    (∃ out, PartitionCombinations fuel N (K : Int) = some out ∧
      ∀ q : List (List Int), q ∈ out ↔
        q.length = K ∧
        (∀ g ∈ q, g ≠ [] ∧ g.Sorted (· < ·) ∧ ∀ x ∈ g, 0 ≤ x ∧ x < N) ∧
        q.Pairwise List.Disjoint ∧
        (∀ k : Nat, k < N → ∃ g ∈ q, (k : Int) ∈ g) ∧
        List.Chain' (· ≤ ·) (q.map List.length)) ∧
    (PartitionCombinations 6 4 2).map List.length = some 10 := by
  refine ⟨⟨_, PartitionCombinations_eq_enum fuel N K hN hK hf, fun q => mem_enum_base N K q⟩,
    by decide⟩

theorem PartitionCombinations_characterisation_witness :
    (∃ out, PartitionCombinations 6 4 ((2 : Nat) : Int) = some out ∧
      ∀ q : List (List Int), q ∈ out ↔
        q.length = 2 ∧
        (∀ g ∈ q, g ≠ [] ∧ g.Sorted (· < ·) ∧ ∀ x ∈ g, 0 ≤ x ∧ x < ((4 : Nat) : Int)) ∧
        q.Pairwise List.Disjoint ∧
        (∀ k : Nat, k < 4 → ∃ g ∈ q, (k : Int) ∈ g) ∧
        List.Chain' (· ≤ ·) (q.map List.length)) ∧
    (PartitionCombinations 6 4 2).map List.length = some 10 :=
  PartitionCombinations_characterisation 6 4 2 (by decide) (by decide) (by decide)

/-! ## Claims about `TotalWeights` and `DiffSum` -/

/-- C11: `DiffSum` does not depend on the order of the groups: if `q` is a permutation of the
groups of `p` then `DiffSum(products, q) = DiffSum(products, p)`, and more generally the
score is the same whenever the group totals of `q` are a permutation of those of `p`
(`p` is a vector, so it has fewer than `2 ^ 64` groups). -/
theorem DiffSum_perm (products : List Product) (p q : List (List Int))
    (hlen : p.length < 18446744073709551616) :
    (p.Perm q → DiffSum products q = DiffSum products p) ∧
    ((p.map (TotalWeights products)).Perm (q.map (TotalWeights products)) →
      DiffSum products q = DiffSum products p) := by
  have key : (p.map (TotalWeights products)).Perm (q.map (TotalWeights products)) →
      DiffSum products q = DiffSum products p := by
    intro h
    have hq : q.length < 18446744073709551616 := by
      have := h.length_eq
      simp only [List.length_map] at this
      omega
    rw [DiffSum_eq products p hlen, DiffSum_eq products q hq, pairSum_perm h]
  exact ⟨fun h => key (h.map _), key⟩

theorem DiffSum_perm_witness :
    DiffSum exampleProducts [[1, 3], [2], [0]] = DiffSum exampleProducts [[0], [2], [1, 3]] :=
  (DiffSum_perm exampleProducts [[0], [2], [1, 3]] [[1, 3], [2], [0]] (by decide)).1 (by decide)

/-- C12 as stated fails: the four groups `[0], [1], [2], [3]` of the items with weights
`0, 0, 2^30, 2^30` have the score 0 although their totals differ. -/
theorem DiffSum_zero_counterexample :
    DiffSum wrapProducts [[0], [1], [2], [3]] = 0 ∧
      ¬ (∀ g ∈ [[0], [1], [2], [3]], ∀ h ∈ [[0], [1], [2], [3]],
        TotalWeights wrapProducts g = TotalWeights wrapProducts h) := by
  decide

/-- C12, amended: groups with equal totals have the score 0; and when the sum of the absolute
differences of the group totals over all pairs of groups is at most `INT_MAX`, the score is
0 exactly when all groups have the same total. -/
theorem DiffSum_eq_zero_iff (products : List Product) (p : List (List Int))
    (hlen : p.length < 18446744073709551616) :
    ((∀ g ∈ p, ∀ h ∈ p, TotalWeights products g = TotalWeights products h) →
      DiffSum products p = 0) ∧
    (exactPairs (p.map (TotalWeights products)) ≤ INT_MAX →
      (DiffSum products p = 0 ↔
        ∀ g ∈ p, ∀ h ∈ p, TotalWeights products g = TotalWeights products h)) := by
  have hall : (∀ a ∈ p.map (TotalWeights products), ∀ b ∈ p.map (TotalWeights products), a = b) ↔
      ∀ g ∈ p, ∀ h ∈ p, TotalWeights products g = TotalWeights products h := by
    simp only [List.mem_map, forall_exists_index, and_imp, forall_apply_eq_imp_iff₂]
  constructor
  · intro h
    rw [DiffSum_eq products p hlen, pairSum_eq_zero_of_eq _ (hall.mpr h)]
    rfl
  · intro hb
    unfold INT_MAX at hb
    have hnn := exactPairs_nonneg (p.map (TotalWeights products))
    rw [DiffSum_eq products p hlen, pairSum_eq_exactPairs _ hb,
      toInt_of_range (by omega) (by omega), exactPairs_eq_zero, hall]

theorem DiffSum_eq_zero_iff_witness :
    DiffSum exampleProducts [[0], [2, 3]] = 0 ↔
      ∀ g ∈ [[0], [2, 3]], ∀ h ∈ [[0], [2, 3]],
        TotalWeights exampleProducts g = TotalWeights exampleProducts h :=
  (DiffSum_eq_zero_iff exampleProducts [[0], [2, 3]] (by decide)).2 (by decide)

/-- C15 as stated fails: the weights `INT_MAX` and `1` in one group have the total
`INT_MAX + 1`, outside the range of an `int`; `TotalWeights` returns the wrapped value
`INT_MIN`, and `main` prints its line for the group as for any other input. -/
theorem overflow_counterexample :
    INT_MAX < exactTotal heavyProducts [0, 1] ∧
      TotalWeights heavyProducts [0, 1] = -2147483648 ∧
      main 4 heavyProducts 1 = some (Outcome.printed ["truck_1:1,2"]) := by
  decide

/-- C15, amended: `TotalWeights` and `DiffSum` do not check for overflow and have no error
result; when every group total and the sum over all pairs of groups of the absolute
differences of the totals, both computed in the integers, lie in the range of an `int`, then
`TotalWeights` and `DiffSum` return exactly these values. -/
theorem exact_of_in_range (products : List Product) (p : List (List Int))
    (hlen : p.length < 18446744073709551616)
    (ht : ∀ g ∈ p, -2147483648 ≤ exactTotal products g ∧ exactTotal products g ≤ INT_MAX)
    (hd : exactPairs (p.map (exactTotal products)) ≤ INT_MAX) :
    (∀ g ∈ p, TotalWeights products g = exactTotal products g) ∧
      DiffSum products p = exactPairs (p.map (exactTotal products)) := by
  unfold INT_MAX at ht hd
  have h1 : ∀ g ∈ p, TotalWeights products g = exactTotal products g := by
    intro g hg
    rw [TotalWeights_eq, toInt_of_range (ht g hg).1 (ht g hg).2]
  have h2 : p.map (fun candidate => TotalWeights products candidate) =
      p.map (exactTotal products) := List.map_congr_left h1
  have hnn := exactPairs_nonneg (p.map (exactTotal products))
  refine ⟨h1, ?_⟩
  rw [DiffSum_eq products p hlen, h2, pairSum_eq_exactPairs _ hd,
    toInt_of_range (by omega) (by omega)]

theorem exact_of_in_range_witness :
    (∀ g ∈ [[0], [2], [1, 3]], TotalWeights exampleProducts g = exactTotal exampleProducts g) ∧
      DiffSum exampleProducts [[0], [2], [1, 3]] =
        exactPairs ([[0], [2], [1, 3]].map (exactTotal exampleProducts)) :=
  exact_of_in_range exampleProducts [[0], [2], [1, 3]] (by decide) (by decide) (by decide)

/-! ## Claims about the search loop of `main` -/

/-- C13 as stated fails: for the two items with weights `0` and `INT_MAX` and two trucks both
partitions have the score `INT_MAX`, which is not below the initial `min_val`, and the search
loop selects neither: `ret` stays empty. -/
theorem search_first_counterexample :
    PartitionCombinations 4 2 2 = some [[[0], [1]], [[1], [0]]] ∧
      DiffSum sentinelProducts [[0], [1]] = INT_MAX ∧
      main.search sentinelProducts [[[0], [1]], [[1], [0]]] = ([], INT_MAX) := by
  decide

/-- C13, amended: for `K ≤ N`, when some element of `PartitionCombinations(N, K)` has a score
below `INT_MAX`, the partition that the search loop selects is an element of the output,
`min_val` is its score, every element before it has a larger score and every element after
it has a score at least as large: it is the first element with the least score. The indices are `int`s, so `N < 2 ^ 31`; with a step budget of at least `N + 2` the call
returns. -/
theorem search_first_minimum (fuel N K : Nat) (products : List Product) (hK : K ≤ N)
    (hN : N < 2147483648) (hf : N + 2 ≤ fuel)
    (hlt : ∃ q ∈ (PartitionCombinations fuel N (K : Int)).getD [],
      DiffSum products q < INT_MAX) :
    ∃ out pre post, PartitionCombinations fuel N (K : Int) = some out ∧
      out = pre ++ (main.search products out).1 :: post ∧
      (main.search products out).2 = DiffSum products (main.search products out).1 ∧
      (∀ q ∈ pre, DiffSum products (main.search products out).1 < DiffSum products q) ∧
      (∀ q ∈ post, DiffSum products (main.search products out).1 ≤ DiffSum products q) := by
  have hout := PartitionCombinations_eq_enum fuel N K hN hK hf
  rw [hout] at hlt
  simp only [Option.getD_some] at hlt
  obtain ⟨q0, hq0, hlt0⟩ := hlt
  rcases main.search_spec products (enum K 1 ((List.range N).map (fun (k : Nat) => (k : Int))))
    with ⟨_, h2⟩ | ⟨pre, post, sel, hl, h1, _, h3, h4⟩
  · exact absurd hlt0 (not_lt.mpr (h2 q0 hq0))
  · refine ⟨_, pre, post, hout, ?_, ?_, ?_, ?_⟩
    · rw [h1]; exact hl
    · rw [h1]
    · rw [h1]; exact h3
    · rw [h1]; exact h4

theorem search_first_minimum_witness :
    ∃ out pre post, PartitionCombinations 6 4 ((3 : Nat) : Int) = some out ∧
      out = pre ++ (main.search exampleProducts out).1 :: post ∧
      (main.search exampleProducts out).2 =
        DiffSum exampleProducts (main.search exampleProducts out).1 ∧
      (∀ q ∈ pre, DiffSum exampleProducts (main.search exampleProducts out).1 <
        DiffSum exampleProducts q) ∧
      (∀ q ∈ post, DiffSum exampleProducts (main.search exampleProducts out).1 ≤
        DiffSum exampleProducts q) :=
  search_first_minimum 6 4 3 exampleProducts (by decide) (by decide) (by decide)
    ⟨[[0], [2], [1, 3]], by decide, by decide⟩

/-- C19: for `N` items and `1 ≤ K ≤ N`, when every score is below `INT_MAX`, the result of
`PartitionCombinations(N, K)` is not empty, the vector `ret` that the search loop selects has
exactly `K` groups with indices `0 ≤ x < N`, every index in every enumerated group is a valid
subscript of `products`, and the output loop reads `ret[0 .. K-1]` inside `ret`: `main` prints
its lines and returns. The indices are `int`s, so `N < 2 ^ 31`; with a step budget of at least `N + 2` the call
returns. -/
theorem main_in_bounds (fuel N K : Nat) (products : List Product) (h1 : 1 ≤ K) (hK : K ≤ N)
    (hN : N < 2147483648) (hf : N + 2 ≤ fuel) (hp : products.length = N)
    (hlt : ∀ q ∈ (PartitionCombinations fuel N (K : Int)).getD [],
      DiffSum products q < INT_MAX) :
    ∃ out, PartitionCombinations fuel N (K : Int) = some out ∧ out ≠ [] ∧
      (main.search products out).1.length = K ∧
      (∀ g ∈ (main.search products out).1, ∀ x ∈ g, 0 ≤ x ∧ x < N) ∧
      (∀ q ∈ out, ∀ g ∈ q, ∀ x ∈ g, toSizeT x < products.length) ∧
      ∃ lines, main fuel products (K : Int) = some (Outcome.printed lines) := by
  subst hp
  have hout := PartitionCombinations_eq_enum fuel products.length K hN hK hf
  rw [hout] at hlt
  simp only [Option.getD_some] at hlt
  obtain ⟨K1, rfl⟩ : ∃ k, K = k + 1 := ⟨K - 1, by omega⟩
  obtain ⟨q0, hq0⟩ := enum_ne_nil K1 1 ((List.range products.length).map (fun (k : Nat) => (k : Int)))
    (nodup_base products.length) (le_refl 1) (by simp only [List.length_map, List.length_range]; omega)
  have hidx : ∀ q ∈ enum (K1 + 1) 1 ((List.range products.length).map (fun (k : Nat) => (k : Int))),
      ∀ g ∈ q, ∀ x ∈ g, 0 ≤ x ∧ x < (products.length : Int) :=
    fun q hq g hg => ((mem_enum_base products.length (K1 + 1) q).mp hq).2.1 g hg |>.2.2
  rcases main.search_spec products
    (enum (K1 + 1) 1 ((List.range products.length).map (fun (k : Nat) => (k : Int))))
    with ⟨_, h2⟩ | ⟨pre, post, sel, hl, hs, _, _, _⟩
  · exact absurd (hlt q0 hq0) (not_lt.mpr (h2 q0 hq0))
  · have hsel : sel ∈ enum (K1 + 1) 1 ((List.range products.length).map (fun (k : Nat) => (k : Int))) := by
      rw [hl]; simp
    have hlen : sel.length = K1 + 1 := ((mem_enum_base products.length (K1 + 1) sel).mp hsel).1
    refine ⟨_, hout, List.ne_nil_of_mem hq0, by rw [hs]; exact hlen,
      by rw [hs]; exact hidx sel hsel, ?_, ?_⟩
    · intro q hq g hg x hx
      obtain ⟨h0, hx1⟩ := hidx q hq g hg x hx
      rw [toSizeT_of_nat x.toNat (by omega) x (by omega)]
      omega
    · have hne : products.isEmpty = false := by
        cases products with
        | nil => simp at hK
        | cons a l => rfl
      unfold main
      rw [hne, hout]
      simp only [Bool.false_eq_true, if_false, Option.map_some', hs]
      obtain ⟨lines, hpr⟩ := main.print_printed products sel (by omega) (K1 + 1) 0 [] (by omega)
      refine ⟨lines, ?_⟩
      rw [← hpr]
      simp

theorem main_in_bounds_witness :
    ∃ out, PartitionCombinations 6 4 ((3 : Nat) : Int) = some out ∧ out ≠ [] ∧
      (main.search exampleProducts out).1.length = 3 ∧
      (∀ g ∈ (main.search exampleProducts out).1, ∀ x ∈ g, 0 ≤ x ∧ x < ((4 : Nat) : Int)) ∧
      (∀ q ∈ out, ∀ g ∈ q, ∀ x ∈ g, toSizeT x < exampleProducts.length) ∧
      ∃ lines, main 6 exampleProducts ((3 : Nat) : Int) = some (Outcome.printed lines) :=
  main_in_bounds 6 4 3 exampleProducts (by decide) (by decide) (by decide) (by decide) rfl
    (by decide)

/-! ## Claims about `ParseArguments` and about the recursion of `PartitionCombinations` -/

/-- C16: the argument `--truck=2` does not change `truck_number` and a `Product` with the
indeterminate values of `id` and `weight` is added for it; no argument list changes
`truck_number` at all, because only the argument `--truck=` itself passes the `strcmp` and it
has no number. -/
theorem ParseArguments_truck_option :
    (∀ id0 weight0 : Nat → Int,
      ParseArguments ["question01", "--truck=2", "1:50"] 3 id0 weight0 =
        ([⟨id0 1, weight0 1⟩, ⟨1, 50⟩], 3)) ∧
    (∀ (argv : List String) (truck_number : Int) (id0 weight0 : Nat → Int),
      (ParseArguments argv truck_number id0 weight0).2 = truck_number) := by
  constructor
  · intro id0 weight0
    rfl
  · intro argv truck_number id0 weight0
    unfold ParseArguments
    split
    · rfl
    · have key : ∀ (l : List Nat) (state : List Product × Int),
          (l.foldl (fun (state : List Product × Int) i =>
            let arg := argv.getD i ""
            if arg = "--truck=" then (state.1, scanTruck arg state.2)
            else
              let iw := scanProduct arg (id0 i) (weight0 i)
              (state.1 ++ [Product.mk iw.1 iw.2], state.2)) state).2 = state.2 := by
        intro l
        induction l with
        | nil => intro state; rfl
        | cons i l ih =>
          intro state
          simp only [List.foldl_cons]
          rw [ih]
          split
          · next h => rw [h]; rfl
          · rfl
      exact key _ _

/-- C20 as stated fails: in `PartitionCombinations(3, 2)` the call with `parts == 0` and
`acc = [[0], [1]]` is made; the sizes of its groups add up to 2, not to `total = 3`, and the
check `total == sum` discards it: the call leaves `ret` as it is. -/
theorem base_case_counterexample :
    Reached 3 2 ⟨[2], 1, 0, [[0], [1]]⟩ ∧
      (3 : Nat) ≠ [[0], [1]].foldl (fun sum (g : List Int) => toSizeT (sum + g.length)) 0 ∧
      PartitionCombinations.f 3 1 [2] 1 0 [[0], [1]] [] = some [] :=
  ⟨reached_example, by decide, by decide⟩

/-- C20, amended: in every call of the lambda that is made in `PartitionCombinations(N, K)`,
the sizes of the groups of `acc` and the number of indices left in `v` add up to `total`; so
the sizes add up to at most `total`, and the check `total == sum` of the base case holds
exactly when no index is left over. -/
theorem base_case_sum (N : Nat) (K : Int) (hN : N < 2147483648) (c : Call)
    (h : Reached N K c) :
    c.acc.foldl (fun sum g => toSizeT (sum + g.length)) 0 + c.v.length = N ∧
      c.acc.foldl (fun sum g => toSizeT (sum + g.length)) 0 ≤ N ∧
      (N = c.acc.foldl (fun sum g => toSizeT (sum + g.length)) 0 ↔ c.v = []) := by
  have hinv := (Reached.invariant N K hN c h).2
  refine ⟨hinv, by omega, ?_⟩
  rw [← List.length_eq_zero]
  omega

theorem base_case_sum_witness :
    [[0], [1]].foldl (fun sum (g : List Int) => toSizeT (sum + g.length)) 0 + [(2 : Int)].length = 3 ∧
      [[0], [1]].foldl (fun sum (g : List Int) => toSizeT (sum + g.length)) 0 ≤ 3 ∧
      (3 = [[0], [1]].foldl (fun sum (g : List Int) => toSizeT (sum + g.length)) 0 ↔
        [(2 : Int)] = []) :=
  base_case_sum 3 2 (by decide) ⟨[2], 1, 0, [[0], [1]]⟩ reached_example

/-! ## Claims about the search as a whole -/

/-- C1 as stated fails: for the two items with weights `0` and `INT_MAX` and two trucks no
sum leaves the range of an `int` (the totals are `0` and `INT_MAX`, their difference is
`INT_MAX`), but the search loop selects no partition: `ret` stays the empty vector, which is
not an element of the enumeration and has no groups, and `main` reads `ret[0]` outside it. -/
theorem search_optimal_counterexample :
    (∀ g ∈ [[(0 : Int)], [1]], -2147483648 ≤ exactTotal sentinelProducts g ∧
        exactTotal sentinelProducts g ≤ INT_MAX) ∧
      exactPairs ([[(0 : Int)], [1]].map (exactTotal sentinelProducts)) ≤ INT_MAX ∧
      (PartitionCombinations 4 2 2).map (fun out => (main.search sentinelProducts out).1) =
        some [] ∧
      (PartitionCombinations 4 2 2).map (fun out =>
        decide ((main.search sentinelProducts out).1 ∈ out)) = some false ∧
      main 4 sentinelProducts 2 = some (Outcome.readOutsideRet []) := by
  decide

/-- C1, amended: for `K ≤ N`, when some element of `PartitionCombinations(N, K)` has a score
below `INT_MAX`, the search loop of `main` selects an element of the enumeration, which is a
partition of the indices `0 .. N-1` into `K` non-empty groups (every index occurs exactly once
in its groups), `min_val` is its `DiffSum`, and its `DiffSum` is at most the `DiffSum` of every
partition `q` of the indices `0 .. N-1` into `K` non-empty groups; the scores are the `int`
values that `DiffSum` returns. The indices are `int`s, so `N < 2 ^ 31`; with a step budget of
at least `N + 2` the call returns. -/
theorem search_optimal (fuel N K : Nat) (products : List Product) (hK : K ≤ N)
    (hN : N < 2147483648) (hf : N + 2 ≤ fuel)
    (hlt : ∃ q ∈ (PartitionCombinations fuel N (K : Int)).getD [],
      DiffSum products q < INT_MAX) :
    ∃ out, PartitionCombinations fuel N (K : Int) = some out ∧
      (main.search products out).1 ∈ out ∧
      (main.search products out).1.length = K ∧
      (∀ g ∈ (main.search products out).1, g ≠ []) ∧
      (main.search products out).1.flatten.Perm
        ((List.range N).map (fun (k : Nat) => (k : Int))) ∧
      (main.search products out).2 = DiffSum products (main.search products out).1 ∧
      ∀ q : List (List Int), q.length = K → (∀ g ∈ q, g ≠ []) →
        q.flatten.Perm ((List.range N).map (fun (k : Nat) => (k : Int))) →
        DiffSum products (main.search products out).1 ≤ DiffSum products q := by
  have hout := PartitionCombinations_eq_enum fuel N K hN hK hf
  rw [hout] at hlt
  simp only [Option.getD_some] at hlt
  obtain ⟨q0, hq0, hlt0⟩ := hlt
  refine ⟨_, hout, ?_⟩
  have hle := fun q hl hne hperm => (search_le products N K hK hN q hl hne hperm).1
  rcases main.search_spec products (enum K 1 ((List.range N).map (fun (k : Nat) => (k : Int))))
    with ⟨_, h2⟩ | ⟨pre, post, sel, hl, h1, _, _, _⟩
  · exact absurd hlt0 (not_lt.mpr (h2 q0 hq0))
  · rw [h1] at hle ⊢
    have hsel : sel ∈ enum K 1 ((List.range N).map (fun (k : Nat) => (k : Int))) := by
      rw [hl]; simp
    have hperm := ((mem_enum K 1 _ sel (nodup_base N) (le_refl 1)).mp hsel).2.2.2
    obtain ⟨hlen, hg, _, _, _⟩ := (mem_enum_base N K sel).mp hsel
    exact ⟨hsel, hlen, fun g hgs => (hg g hgs).1, hperm, rfl, hle⟩

theorem search_optimal_witness :
    ∃ out, PartitionCombinations 6 4 ((3 : Nat) : Int) = some out ∧
      (main.search exampleProducts out).1 ∈ out ∧
      (main.search exampleProducts out).1.length = 3 ∧
      (∀ g ∈ (main.search exampleProducts out).1, g ≠ []) ∧
      (main.search exampleProducts out).1.flatten.Perm
        ((List.range 4).map (fun (k : Nat) => (k : Int))) ∧
      (main.search exampleProducts out).2 =
        DiffSum exampleProducts (main.search exampleProducts out).1 ∧
      ∀ q : List (List Int), q.length = 3 → (∀ g ∈ q, g ≠ []) →
        q.flatten.Perm ((List.range 4).map (fun (k : Nat) => (k : Int))) →
        DiffSum exampleProducts (main.search exampleProducts out).1 ≤
          DiffSum exampleProducts q :=
  search_optimal 6 4 3 exampleProducts (by decide) (by decide) (by decide)
    ⟨[[0], [2], [1, 3]], by decide, by decide⟩

/-- C4: the result of `PartitionCombinations(2, 2)` contains `[[0], [1]]` and `[[1], [0]]`,
which are the same two groups in a different slot order; likewise the result for `N = 4`,
`K = 2` contains both `[[0, 1], [2, 3]]` and `[[2, 3], [0, 1]]`. -/
theorem PartitionCombinations_symmetric :
    PartitionCombinations 4 2 2 = some [[[0], [1]], [[1], [0]]] ∧
      [[(0 : Int)], [1]].Perm [[1], [0]] ∧
      (∃ out, PartitionCombinations 6 4 2 = some out ∧
        [[0, 1], [2, 3]] ∈ out ∧ [[2, 3], [0, 1]] ∈ out) := by
  refine ⟨by decide, by decide, _, rfl, by decide, by decide⟩

/-- C6: for two items and the default three trucks the enumeration is empty, nothing is
selected, and the output loop reads `ret[0]` in the empty vector `ret`; the same for five
items and six trucks.  No error is reported. -/
theorem main_more_trucks_than_items :
    main 5 twoProducts 3 = some (Outcome.readOutsideRet []) ∧
      main 8 fiveProducts 6 = some (Outcome.readOutsideRet []) := by
  constructor <;> decide

/-- C7: for `total = 1` and `partitions = 3` the bound `v.size() - parts + 1` of the loop is
`SIZE_MAX`, so the loop does not end: no budget makes `PartitionCombinations(1, 3)` return.
For `partitions = total + 1` the bound is 0 and the result is the empty list. -/
theorem PartitionCombinations_no_return :
    (∀ fuel, PartitionCombinations fuel 1 3 = none) ∧ PartitionCombinations 3 1 2 = some [] :=
  ⟨PartitionCombinations_one_three, by decide⟩

/-- C5 as stated fails: for the items `1:50 2:30 3:40 4:10` and three trucks the search loop
selects the groups `[0], [2], [1, 3]` with the score 20, not 10; the totals are 50, 40, 40
and their pairwise differences are 10, 10 and 0. -/
theorem example_score_counterexample :
    (PartitionCombinations 6 4 3).map (main.search exampleProducts) =
        some ([[0], [2], [1, 3]], 20) ∧
      DiffSum exampleProducts [[0], [2], [1, 3]] ≠ 10 := by
  decide

/-- C5, amended: for the items `1:50 2:30 3:40 4:10` and three trucks the partition selected
by the search loop has the score 20, and 20 is the least `DiffSum` of all partitions of the
four indices into 3 non-empty groups. -/
theorem example_score :
    (PartitionCombinations 6 4 3).map (main.search exampleProducts) =
        some ([[0], [2], [1, 3]], 20) ∧
      DiffSum exampleProducts [[0], [2], [1, 3]] = 20 ∧
      ∀ q : List (List Int), q.length = 3 → (∀ g ∈ q, g ≠ []) →
        q.flatten.Perm [0, 1, 2, 3] → 20 ≤ DiffSum exampleProducts q := by
  refine ⟨by decide, by decide, ?_⟩
  intro q hl hne hperm
  have h := (search_le exampleProducts 4 3 (by decide) (by decide) q hl hne hperm).1
  have hs : main.search exampleProducts
      (enum 3 1 ((List.range 4).map (fun (k : Nat) => (k : Int)))) =
      ([[0], [2], [1, 3]], 20) := by decide
  rw [hs] at h
  have hd : DiffSum exampleProducts [[0], [2], [1, 3]] = 20 := by decide
  rw [hd] at h
  exact h

theorem example_score_witness : 20 ≤ DiffSum exampleProducts [[3, 0], [1], [2]] :=
  example_score.2.2 [[3, 0], [1], [2]] rfl (by decide) (by decide)

/-- C3: for `K ≤ N` and every set partition `P` of the indices `0 .. N-1` into `K` non-empty,
pairwise disjoint blocks, the result of `PartitionCombinations(N, K)` has an element with `K`
groups whose sets of entries are exactly the blocks of `P`; for `N = 3`, `K = 2` the result
is `[[0], [1, 2]]`, `[[1], [0, 2]]`, `[[2], [0, 1]]`. The indices are `int`s, so `N < 2 ^ 31`; with a step budget of at least `N + 2` the call
returns. -/
theorem PartitionCombinations_complete (fuel N K : Nat) (hK : K ≤ N) (hN : N < 2147483648)
    (hf : N + 2 ≤ fuel) (P : Finset (Finset Int)) (hcard : P.card = K)
    (hne : ∀ b ∈ P, b.Nonempty) (hdisj : ∀ b ∈ P, ∀ c ∈ P, b ≠ c → Disjoint b c)
    (hcov : ∀ x : Int, (∃ b ∈ P, x ∈ b) ↔ 0 ≤ x ∧ x < N) :
    (∃ out, PartitionCombinations fuel N (K : Int) = some out ∧
      ∃ q ∈ out, q.length = K ∧ (q.map List.toFinset).toFinset = P) ∧
    PartitionCombinations 5 3 2 = some [[[0], [1, 2]], [[1], [0, 2]], [[2], [0, 1]]] :=
  ⟨⟨_, PartitionCombinations_eq_enum fuel N K hN hK hf,
    exists_mem_enum_blocks N K P hcard hne hdisj hcov⟩, by decide⟩

theorem PartitionCombinations_complete_witness :
    (∃ out, PartitionCombinations 5 3 ((2 : Nat) : Int) = some out ∧
      ∃ q ∈ out, q.length = 2 ∧
        (q.map List.toFinset).toFinset = ({{1}, {0, 2}} : Finset (Finset Int))) ∧
    PartitionCombinations 5 3 2 = some [[[0], [1, 2]], [[1], [0, 2]], [[2], [0, 1]]] :=
  PartitionCombinations_complete 5 3 2 (by decide) (by decide) (by decide) {{1}, {0, 2}}
    (by decide) (by decide) (by decide)
    (by
      intro x
      simp only [Finset.mem_insert, Finset.mem_singleton, exists_eq_or_imp, exists_eq_left]
      constructor
      · rintro (h | h | h) <;> omega
      · intro h
        have : x = 0 ∨ x = 1 ∨ x = 2 := by omega
        tauto)
end Question01
